import Mathlib

/-!
Verification of the LaunchList repricing core (`tcgapp`): a shallow
embedding of `app/services/repricing.py`, `app/services/alerts.py` and the
pure per-row computations of `app/routers/reprice.py`, with proofs of the
specification's claims about them.

Modelling conventions:

* Python `Decimal` values are modelled by `PyDecVal`: either a finite
  `PyDecimal` — a mantissa/exponent pair (value = m * 10^e), exactly as
  CPython stores finite values, the sign folded into the mantissa — or one
  of the special values (`Infinity` with its sign, quiet or signaling
  `NaN` with its digit payload).  The constructor model `decFromString`
  accepts what CPython's `Decimal(str)` accepts on ASCII text: whitespace
  is stripped, underscores are dropped anywhere (as both implementations
  do), the specials parse case-insensitively with optional sign, and the
  finite grammar is the numeric-string grammar.  The signs of a zero and
  of a `NaN`, which CPython keeps, are not tracked (invisible to numeric
  equality and self-consistent under the str round trip); the
  transliteration of non-ASCII unicode decimal digits is not modelled (the
  inventory dialect is ASCII).  Arithmetic (`calculate_price`,
  `evaluate_alert`) is modelled over `ℚ`, i.e. exactly; CPython rounds
  divisions to 28 significant digits, which agrees with `ℚ` on all
  in-dialect inputs.
* Python `csv` reading/writing (default dialect: delimiter `,`, quote
  char `"`, doubled quotes, minimal quoting, line terminator CR LF) is
  modelled at the character level.  The reader model accepts well-formed
  CSV (a quoted field must be followed by a separator or a terminator;
  Python's lenient recovery on malformed quoting, its blank-line records
  and the writer's quoting of a single empty field are out of the 16-column
  dialect and are not modelled).
* A parsed row (a Python dict) is a key/value list with unique keys
  (`Row`); values (`PyVal`) are strings, `Decimal`s or `None`, matching
  what `parse_csv` stores and what the routers add.
-/

/-! ## Python `Decimal`: finite values as mantissa and exponent -/

/-- A finite CPython `Decimal`: the value is `m * 10 ^ e`.  `Decimal("12.50")`
is `⟨1250, -2⟩`, `Decimal("1E+2")` is `⟨1, 2⟩`. -/
structure PyDecimal where
  m : ℤ
  e : ℤ
deriving DecidableEq, Repr

/-- The rational value of a `Decimal`; Python compares `Decimal`s by value. -/
def PyDecimal.toRat (d : PyDecimal) : ℚ := (d.m : ℚ) * (10 : ℚ) ^ d.e

/-- A CPython `Decimal` object: a finite value, a (signed) infinity, or a
quiet/signaling `NaN` with a digit payload.  `Decimal("NaN007")` is
`nan false 7` (CPython strips the payload's leading zeros; a zero payload
prints as nothing, so `NaN0` and `NaN` coincide as they do in `str`); the
sign of a `NaN` is not tracked, like the sign of a zero. -/
inductive PyDecVal
  | fin (d : PyDecimal)
  | inf (neg : Bool)
  | nan (signaling : Bool) (payload : ℕ)
deriving DecidableEq, Repr

/-- Little-endian decimal digits of `n`, by fuel-bounded division (kernel
computable; `fuel ≥ n` is always enough). -/
def digitsAux : ℕ → ℕ → List ℕ
  | 0, _ => []
  | _ + 1, 0 => []
  | fuel + 1, n => n % 10 :: digitsAux fuel (n / 10)

/-- The decimal digit string of a coefficient, most significant first;
`0` is rendered as the single digit `0` (as CPython does). -/
def coeffDigits (n : ℕ) : List ℕ :=
  if n = 0 then [0] else (digitsAux n n).reverse

/-- Reads a most-significant-first digit list back as a number. -/
def digitsToNat (ds : List ℕ) : ℕ := ds.foldl (fun a d => 10 * a + d) 0

/-- The character of a decimal digit. -/
def digitChar (d : ℕ) : Char := Char.ofNat (48 + d)

/-- The value of a decimal digit character. -/
def charDigit (c : Char) : ℕ := c.toNat - 48

/-- `'E'`, an explicit sign, and the exponent digits — the exponent part of
CPython's scientific rendering. -/
def expChars (adj : ℤ) : List Char :=
  'E' :: (if adj < 0 then '-' else '+') :: (coeffDigits adj.natAbs).map digitChar

/-- The digits of CPython's `Decimal.__str__` (the to-scientific-string of
the decimal spec) for a finite value, sign aside: plain notation when
`e ≤ 0` and the leftmost digit position is above `-6`, scientific notation
otherwise. -/
def decBodyChars (d : PyDecimal) : List Char :=
  let ds : List ℕ := coeffDigits d.m.natAbs
  let ld : ℤ := d.e + ds.length
  if d.e ≤ 0 ∧ -6 < ld then
    if d.e = 0 then ds.map digitChar
    else if 0 < ld then
      (ds.take ld.toNat).map digitChar ++ '.' :: (ds.drop ld.toNat).map digitChar
    else '0' :: '.' :: (List.replicate (-ld).toNat '0' ++ ds.map digitChar)
  else
    (ds.take 1).map digitChar ++
      (if 1 < ds.length then '.' :: (ds.drop 1).map digitChar else []) ++
      expChars (ld - 1)

/-- CPython's `Decimal.__str__` for finite values. -/
def decToChars (d : PyDecimal) : List Char :=
  (if d.m < 0 then ['-'] else []) ++ decBodyChars d

/-- `str()` of a finite `Decimal`. -/
def decToString (d : PyDecimal) : String := String.mk (decToChars d)

/-- Python's whitespace characters for `str.strip()` (ASCII range; the
dialect has no exotic unicode whitespace). -/
def pySpace (c : Char) : Bool :=
  c = ' ' || c = '\t' || c = '\n' || c = '\r' || c = '\x0b' || c = '\x0c'

/-- `str.strip()` on a character list. -/
def pyStripChars (l : List Char) : List Char :=
  ((l.dropWhile pySpace).reverse.dropWhile pySpace).reverse

/-- `str.strip()`. -/
def pyStrip (s : String) : String := String.mk (pyStripChars s.data)

/-- Consumes one optional leading sign; `true` means negative. -/
def parseSign : List Char → Bool × List Char
  | [] => (false, [])
  | c :: r =>
    if c = '-' then (true, r) else if c = '+' then (false, r) else (false, c :: r)

/-- Consumes a maximal run of decimal digit characters. -/
def takeDigits : List Char → List ℕ × List Char
  | [] => ([], [])
  | c :: cs =>
    if c.isDigit then
      let p := takeDigits cs
      (charDigit c :: p.1, p.2)
    else ([], c :: cs)

/-- Applies a parsed sign to a coefficient. -/
def applySign (neg : Bool) (n : ℕ) : ℤ := if neg then -(n : ℤ) else (n : ℤ)

/-- The exponent part after `e`/`E`: an optional sign and at least one
digit, ending the string. -/
def parseExpPart (cs : List Char) : Option ℤ :=
  let s := parseSign cs
  let p := takeDigits s.2
  if p.1 = [] ∨ p.2 ≠ [] then none else some (applySign s.1 (digitsToNat p.1))

/-- The rest of a numeral after all its digits: either the end of the
string, or an exponent part.  `ds` are all digits read so far, `flen` how
many of them were fraction digits. -/
def afterFrac (neg : Bool) (ds : List ℕ) (flen : ℕ) : List Char → Option PyDecimal
  | [] => some ⟨applySign neg (digitsToNat ds), -(flen : ℤ)⟩
  | c :: cs2 =>
    if c = 'e' ∨ c = 'E' then
      (parseExpPart cs2).map fun ex => ⟨applySign neg (digitsToNat ds), ex - flen⟩
    else none

/-- The rest of a numeral after the integer digits and a decimal point:
fraction digits and an optional exponent part. -/
def afterPoint (neg : Bool) (ids : List ℕ) (cs : List Char) : Option PyDecimal :=
  let p := takeDigits cs
  if ids = [] ∧ p.1 = [] then none
  else afterFrac neg (ids ++ p.1) p.1.length p.2

/-- The rest of a numeral after the integer digits. -/
def afterIntPart (neg : Bool) (ids : List ℕ) : List Char → Option PyDecimal
  | [] => if ids = [] then none else some ⟨applySign neg (digitsToNat ids), 0⟩
  | c :: cs =>
    if c = '.' then afterPoint neg ids cs
    else if (c = 'e' ∨ c = 'E') ∧ ids ≠ [] then
      (parseExpPart cs).map fun ex => ⟨applySign neg (digitsToNat ids), ex⟩
    else none

/-- The numeric-string grammar accepted by `Decimal(str)` for finite values:
`[sign] (digits [. digits] | . digits) [(e|E) [sign] digits]`. -/
def decParseChars (cs : List Char) : Option PyDecimal :=
  let s := parseSign cs
  let p := takeDigits s.2
  afterIntPart s.1 p.1 p.2

/-- The digit payload of a `NaN`: zero or more digit characters ending the
string, read as a number (leading zeros drop out, as CPython stores the
payload with leading zeros stripped). -/
def parseNanPayload (cs : List Char) : Option ℕ :=
  let p := takeDigits cs
  if p.2 = [] then some (digitsToNat p.1) else none

/-- The special values accepted by `Decimal(str)`, case-insensitively:
`[sign] (Inf | Infinity)` and `[sign] (NaN | sNaN) [digits]`. -/
def decSpecialParse (cs : List Char) : Option PyDecVal :=
  let s := parseSign cs
  let low := s.2.map Char.toLower
  if low = "inf".data ∨ low = "infinity".data then some (.inf s.1)
  else if low.take 3 = "nan".data then
    (parseNanPayload (low.drop 3)).map fun p => .nan false p
  else if low.take 4 = "snan".data then
    (parseNanPayload (low.drop 4)).map fun p => .nan true p
  else none

/-- The `Decimal(str)` constructor on ASCII text: whitespace is stripped,
underscores are dropped anywhere (as both CPython implementations do), then
the text is a special value or a finite numeral. -/
def decFromString (cs : List Char) : Option PyDecVal :=
  let t := (pyStripChars cs).filter fun c => c != '_'
  match decSpecialParse t with
  | some v => some v
  | Option.none => (decParseChars t).map PyDecVal.fin

/-- CPython's `Decimal.__str__` for any value: finite values as in
`decToChars`; `Infinity` canonically spelt with its sign; `NaN`/`sNaN`
followed by the payload digits when the payload is nonzero. -/
def pyDecValToChars : PyDecVal → List Char
  | .fin d => decToChars d
  | .inf neg => (if neg then ['-'] else []) ++ "Infinity".data
  | .nan sig p =>
      (if sig then 's' :: "NaN".data else "NaN".data) ++
        (if p = 0 then [] else (coeffDigits p).map digitChar)

/-- `str()` of a `Decimal`. -/
def pyDecValToString (v : PyDecVal) : String := String.mk (pyDecValToChars v)

/-! ## The `csv` module (default dialect) at the character level -/

/-- A character the writer must quote around (`QUOTE_MINIMAL`): the
delimiter, the quote char, or a line-terminator character. -/
def specialChar (c : Char) : Bool := c = ',' || c = '"' || c = '\r' || c = '\n'

/-- Doubles every quote character (the writer's escaping). -/
def escapeQuotes : List Char → List Char
  | [] => []
  | c :: cs => if c = '"' then '"' :: '"' :: escapeQuotes cs else c :: escapeQuotes cs

/-- One written field: quoted iff it contains a special character. -/
def writeField (f : List Char) : List Char :=
  if f.any specialChar then '"' :: (escapeQuotes f ++ ['"']) else f

/-- The fields of one record, comma separated. -/
def fieldsChars : List (List Char) → List Char
  | [] => []
  | [f] => writeField f
  | f :: fs => writeField f ++ ',' :: fieldsChars fs

/-- One written record: fields plus the CR LF terminator. -/
def recordChars (fs : List (List Char)) : List Char := fieldsChars fs ++ ['\r', '\n']

/-- `csv.writer` output for a list of records. -/
def csvWriteChars (recs : List (List (List Char))) : List Char :=
  (recs.map recordChars).flatten

/-- A character ending an unquoted field: the delimiter or a terminator
character (a quote inside an unquoted field stays literal, as in Python). -/
def stopChar (c : Char) : Bool := c = ',' || c = '\r' || c = '\n'

/-- Consumes an unquoted field: everything up to a stop character. -/
def takeUnquoted : List Char → List Char × List Char
  | [] => ([], [])
  | c :: cs =>
    if stopChar c then ([], c :: cs)
    else
      let p := takeUnquoted cs
      (c :: p.1, p.2)

/-- Consumes the body of a quoted field after the opening quote, undoing
doubled quotes; returns the field and what follows the closing quote.
`none` on an unterminated quote. -/
def parseQuotedBody : List Char → Option (List Char × List Char)
  | [] => none
  | c :: cs =>
    if c = '"' then
      match cs with
      | [] => some ([], [])
      | c2 :: cs2 =>
        if c2 = '"' then (parseQuotedBody cs2).map fun p => ('"' :: p.1, p.2)
        else some ([], c2 :: cs2)
    else (parseQuotedBody cs).map fun p => (c :: p.1, p.2)

/-- Consumes one field: quoted iff it starts with the quote character. -/
def parseField : List Char → Option (List Char × List Char)
  | [] => some ([], [])
  | c :: cs => if c = '"' then parseQuotedBody cs else some (takeUnquoted (c :: cs))

/-- Consumes the fields of one record (fuel-bounded so that it is kernel
computable; one unit of fuel per field is enough).  Stops before a
terminator character or at the end of input. -/
def parseFieldsF : ℕ → List Char → Option (List (List Char) × List Char)
  | 0, _ => none
  | fuel + 1, cs =>
    match parseField cs with
    | none => none
    | some (f, rest) =>
      match rest with
      | [] => some ([f], [])
      | c :: rest2 =>
        if c = ',' then (parseFieldsF fuel rest2).map fun p => (f :: p.1, p.2)
        else some ([f], c :: rest2)

/-- Consumes a list of records, each terminated by CR LF, LF, or the end of
the input (one unit of fuel per record is enough).  A quoted field followed
by anything but a separator, a terminator or the end of input is rejected
(Python's reader recovers leniently there; such texts are out of dialect),
as is a bare CR. -/
def parseRecordsF : ℕ → List Char → Option (List (List (List Char)))
  | 0, _ => none
  | fuel + 1, cs =>
    if cs.isEmpty then some []
    else
      match parseFieldsF (cs.length + 1) cs with
      | none => none
      | some (fs, rest) =>
        match rest with
        | [] => some [fs]
        | c :: rest2 =>
          if c = '\n' then (parseRecordsF fuel rest2).map fun rs => fs :: rs
          else if c = '\r' then
            match rest2 with
            | [] => none
            | c2 :: rest3 =>
              if c2 = '\n' then (parseRecordsF fuel rest3).map fun rs => fs :: rs
              else none
          else none

/-- `csv.reader`: the records of a text, or `none` when out of dialect. -/
def csvReadChars (cs : List Char) : Option (List (List (List Char))) :=
  parseRecordsF (cs.length + 1) cs

/-- String-level reader. -/
def csvRead (s : String) : Option (List (List String)) :=
  (csvReadChars s.data).map (List.map (List.map String.mk))

/-- String-level writer. -/
def csvWrite (recs : List (List String)) : String :=
  String.mk (csvWriteChars (recs.map (List.map String.data)))

/-! ## `services/repricing.py`: column mapping, `_to_decimal`, rows -/

/-- `CSV_COLUMN_MAP`: TCGPlayer export column header to internal field
name, in source order. -/
def CSV_COLUMN_MAP : List (String × String) :=
  [("TCGplayer Id", "sku_id"),
   ("Product Line", "product_line"),
   ("Set Name", "set_name"),
   ("Product Name", "product_name"),
   ("Title", "title"),
   ("Number", "number"),
   ("Rarity", "rarity"),
   ("Condition", "condition"),
   ("TCG Market Price", "market_price"),
   ("TCG Direct Low", "direct_low"),
   ("TCG Low Price With Shipping", "tcg_low_with_shipping"),
   ("TCG Low Price", "tcg_low"),
   ("Total Quantity", "total_quantity"),
   ("Add to Quantity", "add_to_quantity"),
   ("TCG Marketplace Price", "current_listed_price"),
   ("Photo URL", "photo_url")]

/-- The external column headers, in order. -/
def csvHeaders : List String := CSV_COLUMN_MAP.map Prod.fst

/-- The internal field names, in order. -/
def internalFields : List String := CSV_COLUMN_MAP.map Prod.snd

/-- `PRICE_FIELDS`: the five currency fields. -/
def PRICE_FIELDS : List String :=
  ["market_price", "direct_low", "tcg_low_with_shipping", "tcg_low",
   "current_listed_price"]

/-- The parse errors of the core (the spec's `ParseError`): a text the csv
reader rejects, or a non-numeric currency cell (CPython raises
`decimal.InvalidOperation` there). -/
inductive ParseErr
  | malformedCsv
  | badDecimal (s : String)
deriving DecidableEq, Repr

/-- A value stored in a parsed row: a `Decimal`, a string, or Python `None`. -/
inductive PyVal
  | none
  | str (s : String)
  | dec (d : PyDecVal)
deriving DecidableEq, Repr

/-- A row dict, as an ordered key/value list with unique keys. -/
abbrev Row := List (String × PyVal)

/-- `dict.get` with no default: the value at the first (unique) matching key. -/
def rowGet? (row : Row) (k : String) : Option PyVal :=
  (row.find? fun p => p.1 = k).map Prod.snd

/-- `row[k] = v`: overwrite the existing key in place, else append. -/
def rowSet (row : Row) (k : String) (v : PyVal) : Row :=
  if (row.find? fun p => p.1 = k).isSome then
    row.map fun p => if p.1 = k then (k, v) else p
  else row ++ [(k, v)]

/-- The `DictReader` row dict for one record: each header column paired with
its cell, later duplicates overwriting earlier ones, columns beyond the
record's length getting the `restval` `None` (modelled as the inner
`Option.none`); extra cells go to the rest key and are dropped. -/
def dictRow (header rec : List String) : List (String × Option String) :=
  header.zip (rec.map some ++ List.replicate header.length Option.none)

/-- Lookup in a key/value list where the last binding wins (dict building
order). -/
def lookupLast (ps : List (String × Option String)) (k : String) : Option (Option String) :=
  ps.foldl (fun acc p => if p.1 = k then some p.2 else acc) Option.none

/-- `raw_row.get(csv_col, "")`: the stored cell (possibly `None`), or `""`
when the column is absent from the header. -/
def rawGet (header rec : List String) (col : String) : Option String :=
  (lookupLast (dictRow header rec) col).getD (some "")

/-- `_to_decimal` applied to a `raw_row` value: `None` and blank strings
give `None`; other strings go to the `Decimal` constructor, a string the
constructor rejects being a parse error. -/
def to_decimal : Option String → Except ParseErr (Option PyDecVal)
  | Option.none => .ok Option.none
  | some s =>
    if pyStripChars s.data = [] then .ok Option.none
    else
      match decFromString s.data with
      | some v => .ok (some v)
      | Option.none => .error (.badDecimal s)

/-- One mapped cell: currency columns go through `_to_decimal`, the rest
pass through (`None` for a short record's missing cells). -/
def fieldValue (isPrice : Bool) (raw : Option String) : Except ParseErr PyVal :=
  if isPrice then (to_decimal raw).map fun od => od.elim PyVal.none PyVal.dec
  else .ok (raw.elim PyVal.none PyVal.str)

/-- Structural `mapM` for `Except` (the `for` loops of the source). -/
def mapME (f : α → Except ParseErr β) : List α → Except ParseErr (List β)
  | [] => .ok []
  | a :: as =>
    match f a with
    | .error e => .error e
    | .ok b => (mapME f as).map fun bs => b :: bs

/-- One parsed row: every column of `CSV_COLUMN_MAP`, in order, mapped to
its internal field name and converted value. -/
def rowOfRecord (header rec : List String) : Except ParseErr Row :=
  mapME
    (fun cf => (fieldValue (PRICE_FIELDS.contains cf.2) (rawGet header rec cf.1)).map
      fun v => (cf.2, v))
    CSV_COLUMN_MAP

/-- `RepricingService.parse_csv`: read the text, take the first record as
the header, and map every following record to a row.  (Python's
`DictReader` also skips zero-field blank-line records; the reader model
never produces those.) -/
def parse_csv (s : String) : Except ParseErr (List Row) :=
  match csvRead s with
  | Option.none => .error .malformedCsv
  | some [] => .ok []
  | some (hdr :: recs) => mapME (rowOfRecord hdr) recs

/-- A cell written back by `generate_csv`: `None` and missing fields become
`""`, `Decimal`s their `str()`. -/
def serializeVal : PyVal → String
  | .none => ""
  | .str s => s
  | .dec d => pyDecValToString d

/-- The record `generate_csv` writes for one row: for each mapped field, in
column order, the serialized value of `row.get(field, "")`. -/
def recordOfRow (row : Row) : List String :=
  CSV_COLUMN_MAP.map fun cf => serializeVal ((rowGet? row cf.2).getD (.str ""))

/-- `RepricingService.generate_csv`: the header record followed by one
record per row. -/
def generate_csv (rows : List Row) : String :=
  csvWrite (csvHeaders :: rows.map recordOfRow)

/-! Concrete sample data (the repository's `test_parse_tcgplayer_csv` CSV),
used by witness theorems. -/

/-- The one-row inventory CSV from `tests/test_repricing.py`. -/
def sampleCsv : String :=
  "TCGplayer Id,Product Line,Set Name,Product Name,Title,Number,Rarity,Condition,TCG Market Price,TCG Direct Low,TCG Low Price With Shipping,TCG Low Price,Total Quantity,Add to Quantity,TCG Marketplace Price,Photo URL\n9876543,Pokemon,Surging Sparks,Charizard ex,,006,Double Rare,Near Mint,14.00,,12.75,12.50,5,0,15.00,\n"

/-- The data record of `sampleCsv`. -/
def sampleRec : List String :=
  ["9876543", "Pokemon", "Surging Sparks", "Charizard ex", "", "006",
   "Double Rare", "Near Mint", "14.00", "", "12.75", "12.50", "5", "0",
   "15.00", ""]

/-- The row `parse_csv` produces for `sampleCsv`. -/
def sampleRow : Row :=
  [("sku_id", .str "9876543"), ("product_line", .str "Pokemon"),
   ("set_name", .str "Surging Sparks"), ("product_name", .str "Charizard ex"),
   ("title", .str ""), ("number", .str "006"), ("rarity", .str "Double Rare"),
   ("condition", .str "Near Mint"), ("market_price", .dec (.fin ⟨1400, -2⟩)),
   ("direct_low", PyVal.none),
   ("tcg_low_with_shipping", .dec (.fin ⟨1275, -2⟩)),
   ("tcg_low", .dec (.fin ⟨1250, -2⟩)), ("total_quantity", .str "5"),
   ("add_to_quantity", .str "0"),
   ("current_listed_price", .dec (.fin ⟨1500, -2⟩)),
   ("photo_url", .str "")]

/-- `sampleCsv` with the market-price cell replaced by non-numeric text. -/
def sampleBadCsv : String :=
  "TCGplayer Id,Product Line,Set Name,Product Name,Title,Number,Rarity,Condition,TCG Market Price,TCG Direct Low,TCG Low Price With Shipping,TCG Low Price,Total Quantity,Add to Quantity,TCG Marketplace Price,Photo URL\n9876543,Pokemon,Surging Sparks,Charizard ex,,006,Double Rare,Near Mint,N/A,,12.75,12.50,5,0,15.00,\n"

/-- `sampleCsv` with the market-price cell replaced by the non-numeric text
`NaN`, which `Decimal()` accepts. -/
def sampleNanCsv : String :=
  "TCGplayer Id,Product Line,Set Name,Product Name,Title,Number,Rarity,Condition,TCG Market Price,TCG Direct Low,TCG Low Price With Shipping,TCG Low Price,Total Quantity,Add to Quantity,TCG Marketplace Price,Photo URL\n9876543,Pokemon,Surging Sparks,Charizard ex,,006,Double Rare,Near Mint,NaN,,12.75,12.50,5,0,15.00,\n"

/-- The row `parse_csv` produces for `sampleNanCsv`: the `NaN` cell becomes
a quiet-`NaN` `Decimal`, not an error. -/
def sampleNanRow : Row :=
  [("sku_id", .str "9876543"), ("product_line", .str "Pokemon"),
   ("set_name", .str "Surging Sparks"), ("product_name", .str "Charizard ex"),
   ("title", .str ""), ("number", .str "006"), ("rarity", .str "Double Rare"),
   ("condition", .str "Near Mint"), ("market_price", .dec (.nan false 0)),
   ("direct_low", PyVal.none),
   ("tcg_low_with_shipping", .dec (.fin ⟨1275, -2⟩)),
   ("tcg_low", .dec (.fin ⟨1250, -2⟩)), ("total_quantity", .str "5"),
   ("add_to_quantity", .str "0"),
   ("current_listed_price", .dec (.fin ⟨1500, -2⟩)),
   ("photo_url", .str "")]

/-! ## `services/repricing.py`: the pricing calculator -/

/-- The strategy argument of `calculate_price`.  The source's
`RepricingStrategy` enum has the three named members; `other` stands for
any other Python value a caller could pass (the `else` branch of the
source's `if`/`elif` chain). -/
inductive RepricingStrategy
  | MATCH_LOW
  | UNDERCUT
  | MATCH_MARKET
  | other (s : String)
deriving DecidableEq, Repr

/-- `ROUND_HALF_UP` to an integer: round to nearest, ties away from zero. -/
def roundHalfUpInt (x : ℚ) : ℤ :=
  if 0 ≤ x then ⌊x + 1 / 2⌋ else -⌊-x + 1 / 2⌋

/-- `.quantize(Decimal("0.01"), rounding=ROUND_HALF_UP)` as a value:
round half-up to two fractional digits. -/
def quantize2 (x : ℚ) : ℚ := (roundHalfUpInt (x * 100) : ℚ) / 100

/-- `ABSOLUTE_MINIMUM = Decimal("0.01")`. -/
def ABSOLUTE_MINIMUM : ℚ := 1 / 100

/-- The UNDERCUT candidate: `tcg_low * (1 - pct/100)`, quantized half-up to
two places right after the multiplication; a missing (or zero) percentage
counts as zero (`undercut_pct or Decimal("0")`). -/
def undercutCandidate (tcg_low : ℚ) (undercut_pct : Option ℚ) : ℚ :=
  quantize2 (tcg_low * (1 - undercut_pct.getD 0 / 100))

/-- The candidate price of the strategy dispatch in `calculate_price`:
`tcg_low` for MATCH_LOW, the undercut formula for UNDERCUT, `market_price`
for MATCH_MARKET, and `current_price` for anything else. -/
def strategyCandidate (current_price tcg_low market_price : ℚ)
    (strategy : RepricingStrategy) (undercut_pct : Option ℚ) : ℚ :=
  match strategy with
  | .MATCH_LOW => tcg_low
  | .UNDERCUT => undercutCandidate tcg_low undercut_pct
  | .MATCH_MARKET => market_price
  | .other _ => current_price

/-- `RepricingService.calculate_price`: strategy dispatch, then the floor
clamp, then the one-cent clamp, then the final half-up quantization. -/
def calculate_price (current_price tcg_low market_price : ℚ)
    (strategy : RepricingStrategy) (undercut_pct floor_price : Option ℚ) : ℚ :=
  let c0 := strategyCandidate current_price tcg_low market_price strategy undercut_pct
  let c1 := match floor_price with
    | some f => if c0 < f then f else c0
    | Option.none => c0
  let c2 := if c1 < ABSOLUTE_MINIMUM then ABSOLUTE_MINIMUM else c1
  quantize2 c2

/-! Spec-side restatements (written from the specification's words, to be
compared with the source-side definitions above). -/

/-- Spec step 1: "If `floor_price` is present and `candidate < floor_price`,
set candidate = `floor_price`." -/
def specApplyFloor (floor_price : Option ℚ) (c : ℚ) : ℚ :=
  match floor_price with
  | some f => if c < f then f else c
  | Option.none => c

/-- Spec step 2: "If `candidate < 0.01`, set candidate = `0.01`." -/
def specApplyMinimum (c : ℚ) : ℚ := if c < 1 / 100 then 1 / 100 else c

/-- Spec post-processing: floor first, then the absolute minimum, then a
final half-up rounding to two places. -/
def specPostProcess (floor_price : Option ℚ) (c : ℚ) : ℚ :=
  quantize2 (specApplyMinimum (specApplyFloor floor_price c))

/-! ## `services/alerts.py`: `evaluate_alert` -/

/-- `evaluate_alert(old_price, new_price, threshold_pct, direction)`. -/
def evaluate_alert (old_price new_price threshold_pct : ℚ) (direction : String) : Bool :=
  if old_price = new_price then false
  else if old_price = 0 then decide (direction = "up" ∨ direction = "both")
  else
    let pct_change := (new_price - old_price) / old_price * 100
    if direction = "up" then decide (threshold_pct ≤ pct_change)
    else if direction = "down" then decide (pct_change ≤ -threshold_pct)
    else decide (threshold_pct ≤ |pct_change|)

/-- The specification's four ordered alert rules, written from the spec's
words: no movement never triggers; a zero baseline triggers exactly for
`up`/`both`; otherwise the signed unrounded percentage change is compared
with the threshold according to the direction (`both` and any other value
use the absolute change). -/
def alertSpec (old_price new_price threshold_pct : ℚ) (direction : String) : Prop :=
  old_price ≠ new_price ∧
    (if old_price = 0 then direction = "up" ∨ direction = "both"
     else if direction = "up" then
       threshold_pct ≤ (new_price - old_price) / old_price * 100
     else if direction = "down" then
       (new_price - old_price) / old_price * 100 ≤ -threshold_pct
     else threshold_pct ≤ |(new_price - old_price) / old_price * 100|)

/-! ## `routers/reprice.py`: the per-row batch computations -/

/-- `row.get(k) or Decimal("0")` as a value: the stored `Decimal`'s value,
or zero for `None`, a missing key, or a zero `Decimal` (Python truthiness;
the parsed rows hold only `Decimal`s or `None` in currency fields). -/
def priceOr0 (v : Option PyVal) : ℚ :=
  match v with
  | some (.dec (.fin d)) => d.toRat
  | _ => 0

/-- The `tcg_low` operand of the router loops. -/
def rowTcgLow (row : Row) : ℚ := priceOr0 (rowGet? row "tcg_low")

/-- The `market` operand of the router loops. -/
def rowMarket (row : Row) : ℚ := priceOr0 (rowGet? row "market_price")

/-- The `current` operand of the router loops. -/
def rowCurrent (row : Row) : ℚ := priceOr0 (rowGet? row "current_listed_price")

/-- The `new_price` computed for one row by `reprice_upload` and
`reprice_download`: `calculate_price` when `tcg_low or market` is truthy,
else the current price unchanged. -/
def batchNewPrice (strategy : RepricingStrategy) (undercut floor : Option ℚ)
    (row : Row) : ℚ :=
  if rowTcgLow row ≠ 0 ∨ rowMarket row ≠ 0 then
    calculate_price (rowCurrent row) (rowTcgLow row) (rowMarket row)
      strategy undercut floor
  else rowCurrent row

/-- The `diff` computed for one row by `reprice_upload`:
`new_price - current if current else Decimal("0")`. -/
def batchDiff (strategy : RepricingStrategy) (undercut floor : Option ℚ)
    (row : Row) : ℚ :=
  if rowCurrent row ≠ 0 then
    batchNewPrice strategy undercut floor row - rowCurrent row
  else 0

/-- A row whose current listed price is present (`0.00`, a zero `Decimal`)
while `tcg_low` is `5.00`: the upload loop computes `new_price = 5.00` but
`diff = 0` because `if current` tests truthiness, not presence. -/
def c9ExampleRow : Row :=
  [("tcg_low", .dec (.fin ⟨500, -2⟩)), ("market_price", PyVal.none),
   ("current_listed_price", .dec (.fin ⟨0, -2⟩))]

/-- A currency field of the row is absent (missing key or `None`) or holds a
zero `Decimal` — the spec's "absent/zero". -/
def priceAbsentOrZero (row : Row) (k : String) : Prop :=
  match rowGet? row k with
  | Option.none => True
  | some PyVal.none => True
  | some (PyVal.dec (PyDecVal.fin d)) => d.toRat = 0
  | _ => False

instance (row : Row) (k : String) : Decidable (priceAbsentOrZero row k) := by
  unfold priceAbsentOrZero
  exact match rowGet? row k with
    | Option.none => .isTrue trivial
    | some PyVal.none => .isTrue trivial
    | some (PyVal.dec (PyDecVal.fin d)) => inferInstanceAs (Decidable (d.toRat = 0))
    | some (PyVal.dec (PyDecVal.inf _)) => .isFalse id
    | some (PyVal.dec (PyDecVal.nan _ _)) => .isFalse id
    | some (PyVal.str _) => .isFalse id

/-- A currency-field value: a finite `Decimal`, `None`, or a missing key —
never a string and never a special value.  (The batch loops are modelled on
this domain only: a string or a `NaN`/`Infinity` reaching the loop makes
CPython raise — comparisons with a `NaN` signal, and `quantize` of any
special signals — rather than compute a price, and the spec's
`InventoryRow` holds fixed-point decimals or absent values.) -/
def pricelike (v : Option PyVal) : Prop :=
  match v with
  | some (PyVal.str _) => False
  | some (PyVal.dec (PyDecVal.inf _)) => False
  | some (PyVal.dec (PyDecVal.nan _ _)) => False
  | _ => True

instance (v : Option PyVal) : Decidable (pricelike v) := by
  unfold pricelike
  exact match v with
    | Option.none => .isTrue trivial
    | some PyVal.none => .isTrue trivial
    | some (PyVal.dec (PyDecVal.fin _)) => .isTrue trivial
    | some (PyVal.dec (PyDecVal.inf _)) => .isFalse id
    | some (PyVal.dec (PyDecVal.nan _ _)) => .isFalse id
    | some (PyVal.str _) => .isFalse id

/-- The row's currency fields hold finite `Decimal`s or `None` (never
strings or special values), as `parse_csv` guarantees for numeric cells. -/
def WellPriced (row : Row) : Prop :=
  ∀ k ∈ PRICE_FIELDS, pricelike (rowGet? row k)

instance (row : Row) : Decidable (WellPriced row) :=
  List.decidableBAll _ PRICE_FIELDS

/-! ## Lemmas: digits -/

theorem digitsToNat_append (xs : List ℕ) (d : ℕ) :
    digitsToNat (xs ++ [d]) = 10 * digitsToNat xs + d := by
  simp [digitsToNat, List.foldl_append]

theorem digitsToNat_reverse_digitsAux :
    ∀ (fuel n : ℕ), n ≤ fuel → digitsToNat (digitsAux fuel n).reverse = n := by
  intro fuel
  induction fuel with
  | zero => intro n hn; interval_cases n; rfl
  | succ fuel ih =>
    intro n hn
    match n with
    | 0 => rfl
    | k + 1 =>
      have hstep : digitsAux (fuel + 1) (k + 1)
          = (k + 1) % 10 :: digitsAux fuel ((k + 1) / 10) := rfl
      rw [hstep, List.reverse_cons, digitsToNat_append]
      rw [ih ((k + 1) / 10) (by omega)]
      omega

theorem digitsAux_lt (fuel n : ℕ) : ∀ d ∈ digitsAux fuel n, d < 10 := by
  induction fuel generalizing n with
  | zero => intro d hd; simp [digitsAux] at hd
  | succ fuel ih =>
    intro d hd
    match n with
    | 0 => simp [digitsAux] at hd
    | k + 1 =>
      have hstep : digitsAux (fuel + 1) (k + 1)
          = (k + 1) % 10 :: digitsAux fuel ((k + 1) / 10) := rfl
      rw [hstep] at hd
      rcases List.mem_cons.mp hd with h | h
      · omega
      · exact ih _ d h

theorem digitsToNat_coeffDigits (n : ℕ) : digitsToNat (coeffDigits n) = n := by
  unfold coeffDigits
  split
  · simp [digitsToNat]; omega
  · exact digitsToNat_reverse_digitsAux n n le_rfl

theorem coeffDigits_lt (n : ℕ) : ∀ d ∈ coeffDigits n, d < 10 := by
  unfold coeffDigits
  split
  · intro d hd; simp at hd; omega
  · intro d hd
    exact digitsAux_lt n n d (List.mem_reverse.mp hd)

theorem coeffDigits_ne_nil (n : ℕ) : coeffDigits n ≠ [] := by
  unfold coeffDigits
  split
  · simp
  · intro h
    have h0 : digitsToNat (coeffDigits n) = n := digitsToNat_coeffDigits n
    unfold coeffDigits at h0
    rw [if_neg (by assumption)] at h0
    rw [h] at h0
    simp [digitsToNat] at h0
    omega

/-! ## Lemmas: digit characters -/

theorem digitChar_isDigit {d : ℕ} (hd : d < 10) : (digitChar d).isDigit = true := by
  interval_cases d <;> decide

theorem charDigit_digitChar {d : ℕ} (hd : d < 10) : charDigit (digitChar d) = d := by
  interval_cases d <;> decide

theorem digitChar_not_space {d : ℕ} (hd : d < 10) : pySpace (digitChar d) = false := by
  interval_cases d <;> decide

theorem digitChar_ne_dash {d : ℕ} (hd : d < 10) : digitChar d ≠ '-' := by
  interval_cases d <;> decide

theorem digitChar_ne_plus {d : ℕ} (hd : d < 10) : digitChar d ≠ '+' := by
  interval_cases d <;> decide

theorem digitChar_ne_underscore {d : ℕ} (hd : d < 10) : digitChar d ≠ '_' := by
  interval_cases d <;> decide

theorem digitChar_ne_ins {d : ℕ} (hd : d < 10) :
    digitChar d ≠ 'i' ∧ digitChar d ≠ 'n' ∧ digitChar d ≠ 's' := by
  interval_cases d <;> decide

theorem toLower_digitChar {d : ℕ} (hd : d < 10) :
    Char.toLower (digitChar d) = digitChar d := by
  interval_cases d <;> decide

/-! ## Lemmas: `takeDigits` and `parseSign` -/

theorem takeDigits_nostart :
    ∀ (l : List Char), (∀ c, l.head? = some c → c.isDigit = false) →
      takeDigits l = ([], l) := by
  intro l hl
  match l with
  | [] => rfl
  | c :: cs =>
    rw [takeDigits]
    rw [hl c rfl]
    simp

theorem takeDigits_run (ds : List ℕ) (rest : List Char)
    (hds : ∀ d ∈ ds, d < 10)
    (hrest : ∀ c, rest.head? = some c → c.isDigit = false) :
    takeDigits (ds.map digitChar ++ rest) = (ds, rest) := by
  induction ds with
  | nil => exact takeDigits_nostart rest hrest
  | cons d ds ih =>
    have hd : d < 10 := hds d (List.mem_cons_self d ds)
    rw [List.map_cons, List.cons_append, takeDigits]
    rw [digitChar_isDigit hd]
    simp only [if_true]
    rw [ih (fun x hx => hds x (List.mem_cons_of_mem d hx))]
    rw [charDigit_digitChar hd]

theorem parseSign_dash (r : List Char) : parseSign ('-' :: r) = (true, r) := rfl

theorem parseSign_plus (r : List Char) : parseSign ('+' :: r) = (false, r) := rfl

theorem parseSign_other (c : Char) (r : List Char) (h1 : c ≠ '-') (h2 : c ≠ '+') :
    parseSign (c :: r) = (false, c :: r) := by
  rw [parseSign, if_neg h1, if_neg h2]

/-! ## Lemmas: the decimal string round trip -/

theorem digitsToNat_replicate_zero (k : ℕ) (ds : List ℕ) :
    digitsToNat (List.replicate k 0 ++ ds) = digitsToNat ds := by
  induction k with
  | zero => rfl
  | succ k ih =>
    rw [List.replicate_succ, List.cons_append]
    show digitsToNat (List.replicate k 0 ++ ds) = digitsToNat ds
    exact ih

theorem parseExpPart_roundtrip (adj : ℤ) :
    parseExpPart
      ((if adj < 0 then '-' else '+') :: (coeffDigits adj.natAbs).map digitChar)
      = some adj := by
  have hrun : takeDigits ((coeffDigits adj.natAbs).map digitChar ++ [])
      = (coeffDigits adj.natAbs, []) :=
    takeDigits_run _ _ (coeffDigits_lt _) (by intro c hc; simp at hc)
  rw [List.append_nil] at hrun
  by_cases h : adj < 0
  · rw [if_pos h]
    rw [parseExpPart, parseSign_dash, hrun]
    rw [if_neg (by simp [coeffDigits_ne_nil])]
    rw [digitsToNat_coeffDigits, applySign]
    simp only [if_true]
    rw [Int.ofNat_natAbs_of_nonpos (le_of_lt h), neg_neg]
  · rw [if_neg h]
    rw [parseExpPart, parseSign_plus, hrun]
    rw [if_neg (by simp [coeffDigits_ne_nil])]
    rw [digitsToNat_coeffDigits, applySign]
    simp only [Bool.false_eq_true, if_false]
    rw [Int.natAbs_of_nonneg (not_lt.mp h)]

theorem afterIntPart_decBodyChars (d : PyDecimal) (neg : Bool) :
    afterIntPart neg (takeDigits (decBodyChars d)).1 (takeDigits (decBodyChars d)).2
      = some ⟨applySign neg (d.m.natAbs), d.e⟩ := by
  have hlt : ∀ x ∈ coeffDigits d.m.natAbs, x < 10 := coeffDigits_lt _
  have hval : digitsToNat (coeffDigits d.m.natAbs) = d.m.natAbs :=
    digitsToNat_coeffDigits _
  have hne : coeffDigits d.m.natAbs ≠ [] := coeffDigits_ne_nil _
  set ds := coeffDigits d.m.natAbs with hds
  simp only [decBodyChars]
  by_cases hcond : d.e ≤ 0 ∧ -6 < d.e + (ds.length : ℤ)
  · rw [if_pos (by exact_mod_cast hcond)]
    by_cases he0 : d.e = 0
    · rw [if_pos he0]
      have hrun := takeDigits_run ds [] hlt (by intro c hc; simp at hc)
      rw [List.append_nil] at hrun
      rw [hrun]
      rw [afterIntPart, if_neg hne, hval, he0]
    · rw [if_neg he0]
      have helt : d.e < 0 := lt_of_le_of_ne hcond.1 he0
      by_cases hld : (0 : ℤ) < d.e + (ds.length : ℤ)
      · rw [if_pos (by exact_mod_cast hld)]
        have hkL : (d.e + (ds.length : ℤ)).toNat < ds.length := by omega
        have hrun1 := takeDigits_run (ds.take (d.e + (ds.length : ℤ)).toNat)
          ('.' :: (ds.drop (d.e + (ds.length : ℤ)).toNat).map digitChar)
          (fun x hx => hlt x (List.take_subset _ _ hx))
          (by intro c hc; simp at hc; rw [← hc]; decide)
        rw [hrun1]
        rw [afterIntPart, if_pos rfl]
        have hrun2 := takeDigits_run (ds.drop (d.e + (ds.length : ℤ)).toNat) []
          (fun x hx => hlt x (List.drop_subset _ _ hx))
          (by intro c hc; simp at hc)
        rw [List.append_nil] at hrun2
        simp only [afterPoint, hrun2]
        rw [if_neg (by
          intro hcontra
          have hd := hcontra.2
          have hlen : (ds.drop (d.e + (ds.length : ℤ)).toNat).length
              = ds.length - (d.e + (ds.length : ℤ)).toNat := List.length_drop _ _
          rw [hd] at hlen
          simp at hlen
          omega)]
        rw [afterFrac]
        rw [List.take_append_drop, hval]
        simp only [Option.some_inj, PyDecimal.mk.injEq]
        refine ⟨trivial, ?_⟩
        rw [List.length_drop]
        omega
      · rw [if_neg (by exact_mod_cast hld)]
        have hdig0 : digitChar 0 = '0' := by decide
        have hform : ('0' :: '.' :: (List.replicate (-(d.e + (ds.length : ℤ))).toNat '0'
              ++ ds.map digitChar))
            = ([0].map digitChar ++ '.' ::
                ((List.replicate (-(d.e + (ds.length : ℤ))).toNat 0 ++ ds).map digitChar)) := by
          simp [List.map_replicate, hdig0]
        rw [hform]
        have hrun1 := takeDigits_run [0]
          ('.' :: ((List.replicate (-(d.e + (ds.length : ℤ))).toNat 0 ++ ds).map digitChar))
          (by intro x hx; simp at hx; omega)
          (by intro c hc; simp at hc; rw [← hc]; decide)
        rw [hrun1]
        rw [afterIntPart, if_pos rfl]
        have hrun2 := takeDigits_run (List.replicate (-(d.e + (ds.length : ℤ))).toNat 0 ++ ds) []
          (by
            intro x hx
            rcases List.mem_append.mp hx with h | h
            · have := List.eq_of_mem_replicate h; omega
            · exact hlt x h)
          (by intro c hc; simp at hc)
        rw [List.append_nil] at hrun2
        simp only [afterPoint, hrun2]
        rw [if_neg (by intro hcontra; simp at hcontra)]
        rw [afterFrac]
        have hjoin : ([0] ++ (List.replicate (-(d.e + (ds.length : ℤ))).toNat 0 ++ ds))
            = List.replicate ((-(d.e + (ds.length : ℤ))).toNat + 1) 0 ++ ds := by
          rw [List.replicate_succ]
          simp
        rw [hjoin, digitsToNat_replicate_zero, hval]
        simp only [Option.some_inj, PyDecimal.mk.injEq]
        refine ⟨trivial, ?_⟩
        rw [List.length_append, List.length_replicate]
        omega
  · rw [if_neg (by exact_mod_cast hcond)]
    obtain ⟨d0, ds', hcons⟩ : ∃ a l, ds = a :: l := by
      cases h : ds with
      | nil => exact absurd h hne
      | cons a l => exact ⟨a, l, rfl⟩
    by_cases h1L : 1 < ds.length
    · rw [if_pos (by exact_mod_cast h1L)]
      have hform : ((ds.take 1).map digitChar ++
            ('.' :: (ds.drop 1).map digitChar) ++ expChars (d.e + (ds.length : ℤ) - 1))
          = ((ds.take 1).map digitChar ++
            ('.' :: ((ds.drop 1).map digitChar ++ expChars (d.e + (ds.length : ℤ) - 1)))) := by
        simp
      rw [hform]
      have hrun1 := takeDigits_run (ds.take 1)
          ('.' :: ((ds.drop 1).map digitChar ++ expChars (d.e + (ds.length : ℤ) - 1)))
          (fun x hx => hlt x (List.take_subset _ _ hx))
          (by intro c hc; simp at hc; rw [← hc]; decide)
      rw [hrun1]
      rw [afterIntPart, if_pos rfl]
      have hrun2 := takeDigits_run (ds.drop 1) (expChars (d.e + (ds.length : ℤ) - 1))
          (fun x hx => hlt x (List.drop_subset _ _ hx))
          (by intro c hc; rw [expChars] at hc; simp at hc; rw [← hc]; decide)
      simp only [afterPoint, hrun2]
      rw [if_neg (by
        intro hcontra
        rw [hcons] at hcontra
        simp at hcontra)]
      rw [expChars, afterFrac]
      rw [if_pos (Or.inr rfl)]
      rw [parseExpPart_roundtrip]
      rw [List.take_append_drop, hval]
      simp only [Option.map_some', Option.some_inj, PyDecimal.mk.injEq]
      refine ⟨trivial, ?_⟩
      rw [List.length_drop]
      omega
    · rw [if_neg (by exact_mod_cast h1L)]
      have h0L : 0 < ds.length := by rw [hcons]; simp
      have hL1 : ds.length = 1 := by omega
      have hds1 : ds.take 1 = ds := List.take_of_length_le (by omega)
      have hform : ((ds.take 1).map digitChar ++ [] ++ expChars (d.e + (ds.length : ℤ) - 1))
          = (ds.map digitChar ++ expChars (d.e + (ds.length : ℤ) - 1)) := by
        rw [hds1]
        simp
      rw [hform]
      have hrun1 := takeDigits_run ds (expChars (d.e + (ds.length : ℤ) - 1)) hlt
        (by intro c hc; rw [expChars] at hc; simp at hc; rw [← hc]; decide)
      rw [hrun1]
      rw [expChars]
      rw [afterIntPart]
      rw [if_neg (by decide), if_pos (by exact ⟨Or.inr rfl, hne⟩)]
      rw [parseExpPart_roundtrip]
      rw [hval]
      simp only [Option.map_some', Option.some_inj, PyDecimal.mk.injEq]
      refine ⟨trivial, ?_⟩
      omega

theorem decBodyChars_head (d : PyDecimal) :
    ∃ c rest, decBodyChars d = c :: rest ∧ ∃ k, k < 10 ∧ c = digitChar k := by
  have hne : coeffDigits d.m.natAbs ≠ [] := coeffDigits_ne_nil _
  have hlt : ∀ x ∈ coeffDigits d.m.natAbs, x < 10 := coeffDigits_lt _
  obtain ⟨d0, ds', hcons⟩ : ∃ a l, coeffDigits d.m.natAbs = a :: l := by
    cases h : coeffDigits d.m.natAbs with
    | nil => exact absurd h hne
    | cons a l => exact ⟨a, l, rfl⟩
  have hd0 : d0 < 10 := hlt d0 (by rw [hcons]; exact List.mem_cons_self _ _)
  simp only [decBodyChars]
  by_cases hcond : d.e ≤ 0 ∧ -6 < d.e + ((coeffDigits d.m.natAbs).length : ℤ)
  · rw [if_pos (by exact_mod_cast hcond)]
    by_cases he0 : d.e = 0
    · rw [if_pos he0, hcons, List.map_cons]
      exact ⟨digitChar d0, _, rfl, d0, hd0, rfl⟩
    · rw [if_neg he0]
      by_cases hld : (0 : ℤ) < d.e + (((coeffDigits d.m.natAbs)).length : ℤ)
      · rw [if_pos (by exact_mod_cast hld)]
        obtain ⟨j, hj⟩ : ∃ j, (d.e + (((coeffDigits d.m.natAbs)).length : ℤ)).toNat = j + 1 := by
          have : (d.e + (((coeffDigits d.m.natAbs)).length : ℤ)).toNat ≠ 0 := by omega
          exact ⟨_, (Nat.succ_pred_eq_of_pos (Nat.pos_of_ne_zero this)).symm⟩
        rw [hj, hcons, List.take_succ_cons, List.map_cons, List.cons_append]
        exact ⟨digitChar d0, _, rfl, d0, hd0, rfl⟩
      · rw [if_neg (by exact_mod_cast hld)]
        exact ⟨'0', _, rfl, 0, by decide, by decide⟩
  · rw [if_neg (by exact_mod_cast hcond)]
    rw [hcons, List.take_succ_cons, List.take_zero, List.map_cons, List.map_nil,
      List.cons_append, List.nil_append, List.cons_append]
    exact ⟨digitChar d0, _, rfl, d0, hd0, rfl⟩

theorem ne_dash_of_isDigit {c : Char} (h : c.isDigit = true) : c ≠ '-' := by
  intro he
  rw [he] at h
  exact absurd h (by decide)

theorem ne_plus_of_isDigit {c : Char} (h : c.isDigit = true) : c ≠ '+' := by
  intro he
  rw [he] at h
  exact absurd h (by decide)

theorem applySign_natAbs (m : ℤ) :
    applySign (decide (m < 0)) m.natAbs = m := by
  by_cases hm : m < 0
  · rw [decide_eq_true hm, applySign, if_pos rfl]
    rw [Int.ofNat_natAbs_of_nonpos (le_of_lt hm), neg_neg]
  · rw [decide_eq_false hm, applySign, if_neg (by simp)]
    rw [Int.natAbs_of_nonneg (not_lt.mp hm)]

/-- `Decimal(str(d)) == d`, representation for representation. -/
theorem decParseChars_decToChars (d : PyDecimal) :
    decParseChars (decToChars d) = some d := by
  rw [decToChars]
  by_cases hm : d.m < 0
  · rw [if_pos hm, List.singleton_append]
    simp only [decParseChars]
    rw [parseSign_dash]
    rw [afterIntPart_decBodyChars d true]
    have hsign : applySign true d.m.natAbs = d.m := by
      have := applySign_natAbs d.m
      rw [decide_eq_true hm] at this
      exact this
    rw [hsign]
  · rw [if_neg hm, List.nil_append]
    obtain ⟨c, rest, hbody, k, hk, hck⟩ := decBodyChars_head d
    have hcdig : c.isDigit = true := by rw [hck]; exact digitChar_isDigit hk
    simp only [decParseChars]
    rw [hbody, parseSign_other c rest (ne_dash_of_isDigit hcdig) (ne_plus_of_isDigit hcdig),
      ← hbody]
    rw [afterIntPart_decBodyChars d false]
    have hsign : applySign false d.m.natAbs = d.m := by
      have := applySign_natAbs d.m
      rw [decide_eq_false hm] at this
      exact this
    rw [hsign]

theorem expChars_not_space (adj : ℤ) : ∀ c ∈ expChars adj, pySpace c = false := by
  intro c hc
  simp only [expChars, List.mem_cons, List.mem_map] at hc
  rcases hc with h | h | ⟨x, hx, hxc⟩
  · rw [h]; decide
  · rw [h]; split <;> decide
  · rw [← hxc]; exact digitChar_not_space (coeffDigits_lt _ x hx)

theorem decBodyChars_not_space (d : PyDecimal) :
    ∀ c ∈ decBodyChars d, pySpace c = false := by
  have hlt : ∀ x ∈ coeffDigits d.m.natAbs, x < 10 := coeffDigits_lt _
  intro c hc
  simp only [decBodyChars] at hc
  split at hc
  · split at hc
    · rcases List.mem_map.mp hc with ⟨x, hx, hxc⟩
      rw [← hxc]; exact digitChar_not_space (hlt x hx)
    · split at hc
      · rcases List.mem_append.mp hc with h | h
        · rcases List.mem_map.mp h with ⟨x, hx, hxc⟩
          rw [← hxc]; exact digitChar_not_space (hlt x (List.take_subset _ _ hx))
        · rcases List.mem_cons.mp h with h2 | h2
          · rw [h2]; decide
          · rcases List.mem_map.mp h2 with ⟨x, hx, hxc⟩
            rw [← hxc]; exact digitChar_not_space (hlt x (List.drop_subset _ _ hx))
      · rcases List.mem_cons.mp hc with h2 | h2
        · rw [h2]; decide
        · rcases List.mem_cons.mp h2 with h3 | h3
          · rw [h3]; decide
          · rcases List.mem_append.mp h3 with h | h
            · rw [List.eq_of_mem_replicate h]; decide
            · rcases List.mem_map.mp h with ⟨x, hx, hxc⟩
              rw [← hxc]; exact digitChar_not_space (hlt x hx)
  · rcases List.mem_append.mp hc with h | h
    · rcases List.mem_append.mp h with h2 | h2
      · rcases List.mem_map.mp h2 with ⟨x, hx, hxc⟩
        rw [← hxc]; exact digitChar_not_space (hlt x (List.take_subset _ _ hx))
      · split at h2
        · rcases List.mem_cons.mp h2 with h3 | h3
          · rw [h3]; decide
          · rcases List.mem_map.mp h3 with ⟨x, hx, hxc⟩
            rw [← hxc]; exact digitChar_not_space (hlt x (List.drop_subset _ _ hx))
        · simp at h2
    · exact expChars_not_space _ c h

theorem decToChars_not_space (d : PyDecimal) :
    ∀ c ∈ decToChars d, pySpace c = false := by
  intro c hc
  rw [decToChars] at hc
  rcases List.mem_append.mp hc with h | h
  · split at h
    · rcases List.mem_cons.mp h with h2 | h2
      · rw [h2]; decide
      · simp at h2
    · simp at h
  · exact decBodyChars_not_space d c h

theorem dropWhile_of_not_space (l : List Char)
    (h : ∀ c ∈ l, pySpace c = false) : l.dropWhile pySpace = l := by
  cases l with
  | nil => rfl
  | cons a l =>
    rw [List.dropWhile_cons, h a (List.mem_cons_self _ _)]
    simp

theorem pyStripChars_of_not_space (l : List Char)
    (h : ∀ c ∈ l, pySpace c = false) : pyStripChars l = l := by
  rw [pyStripChars, dropWhile_of_not_space l h,
    dropWhile_of_not_space l.reverse (by intro c hc; exact h c (List.mem_reverse.mp hc)),
    List.reverse_reverse]

theorem decToChars_ne_nil (d : PyDecimal) : decToChars d ≠ [] := by
  obtain ⟨c, rest, hbody, _⟩ := decBodyChars_head d
  rw [decToChars, hbody]
  intro hcontra
  rcases List.append_eq_nil.mp hcontra with ⟨_, h2⟩
  exact List.cons_ne_nil _ _ h2

theorem expChars_ne_underscore (adj : ℤ) : ∀ c ∈ expChars adj, c ≠ '_' := by
  intro c hc
  simp only [expChars, List.mem_cons, List.mem_map] at hc
  rcases hc with h | h | ⟨x, hx, hxc⟩
  · rw [h]; decide
  · rw [h]; split <;> decide
  · rw [← hxc]; exact digitChar_ne_underscore (coeffDigits_lt _ x hx)

theorem decBodyChars_ne_underscore (d : PyDecimal) :
    ∀ c ∈ decBodyChars d, c ≠ '_' := by
  have hlt : ∀ x ∈ coeffDigits d.m.natAbs, x < 10 := coeffDigits_lt _
  intro c hc
  simp only [decBodyChars] at hc
  split at hc
  · split at hc
    · rcases List.mem_map.mp hc with ⟨x, hx, hxc⟩
      rw [← hxc]; exact digitChar_ne_underscore (hlt x hx)
    · split at hc
      · rcases List.mem_append.mp hc with h | h
        · rcases List.mem_map.mp h with ⟨x, hx, hxc⟩
          rw [← hxc]; exact digitChar_ne_underscore (hlt x (List.take_subset _ _ hx))
        · rcases List.mem_cons.mp h with h2 | h2
          · rw [h2]; decide
          · rcases List.mem_map.mp h2 with ⟨x, hx, hxc⟩
            rw [← hxc]; exact digitChar_ne_underscore (hlt x (List.drop_subset _ _ hx))
      · rcases List.mem_cons.mp hc with h2 | h2
        · rw [h2]; decide
        · rcases List.mem_cons.mp h2 with h3 | h3
          · rw [h3]; decide
          · rcases List.mem_append.mp h3 with h | h
            · rw [List.eq_of_mem_replicate h]; decide
            · rcases List.mem_map.mp h with ⟨x, hx, hxc⟩
              rw [← hxc]; exact digitChar_ne_underscore (hlt x hx)
  · rcases List.mem_append.mp hc with h | h
    · rcases List.mem_append.mp h with h2 | h2
      · rcases List.mem_map.mp h2 with ⟨x, hx, hxc⟩
        rw [← hxc]; exact digitChar_ne_underscore (hlt x (List.take_subset _ _ hx))
      · split at h2
        · rcases List.mem_cons.mp h2 with h3 | h3
          · rw [h3]; decide
          · rcases List.mem_map.mp h3 with ⟨x, hx, hxc⟩
            rw [← hxc]; exact digitChar_ne_underscore (hlt x (List.drop_subset _ _ hx))
        · simp at h2
    · exact expChars_ne_underscore _ c h

theorem decToChars_ne_underscore (d : PyDecimal) :
    ∀ c ∈ decToChars d, c ≠ '_' := by
  intro c hc
  rw [decToChars] at hc
  rcases List.mem_append.mp hc with h | h
  · split at h
    · rcases List.mem_cons.mp h with h2 | h2
      · rw [h2]; decide
      · simp at h2
    · simp at h
  · exact decBodyChars_ne_underscore d c h

theorem filter_ne_underscore (l : List Char) (h : ∀ c ∈ l, c ≠ '_') :
    (l.filter fun c => c != '_') = l := by
  induction l with
  | nil => rfl
  | cons a l ih =>
    rw [List.filter_cons, if_pos (by simpa using h a (List.mem_cons_self _ _)),
      ih fun c hc => h c (List.mem_cons_of_mem _ hc)]

theorem map_toLower_digitChars (ds : List ℕ) (h : ∀ x ∈ ds, x < 10) :
    (ds.map digitChar).map Char.toLower = ds.map digitChar := by
  induction ds with
  | nil => rfl
  | cons a l ih =>
    rw [List.map_cons, List.map_cons, toLower_digitChar (h a (List.mem_cons_self _ _)),
      ih fun x hx => h x (List.mem_cons_of_mem _ hx)]

theorem pyDecValToChars_not_space (v : PyDecVal) :
    ∀ c ∈ pyDecValToChars v, pySpace c = false := by
  cases v with
  | fin d => exact decToChars_not_space d
  | inf neg => cases neg <;> decide
  | nan sig p =>
    intro c hc
    simp only [pyDecValToChars] at hc
    rcases List.mem_append.mp hc with h | h
    · clear hc
      cases sig
      · revert c h
        decide
      · revert c h
        decide
    · split at h
      · simp at h
      · rcases List.mem_map.mp h with ⟨x, hx, hxc⟩
        rw [← hxc]; exact digitChar_not_space (coeffDigits_lt _ x hx)

theorem pyDecValToChars_ne_underscore (v : PyDecVal) :
    ∀ c ∈ pyDecValToChars v, c ≠ '_' := by
  cases v with
  | fin d => exact decToChars_ne_underscore d
  | inf neg => cases neg <;> decide
  | nan sig p =>
    intro c hc
    simp only [pyDecValToChars] at hc
    rcases List.mem_append.mp hc with h | h
    · clear hc
      cases sig
      · revert c h
        decide
      · revert c h
        decide
    · split at h
      · simp at h
      · rcases List.mem_map.mp h with ⟨x, hx, hxc⟩
        rw [← hxc]; exact digitChar_ne_underscore (coeffDigits_lt _ x hx)

theorem pyDecValToChars_ne_nil (v : PyDecVal) : pyDecValToChars v ≠ [] := by
  cases v with
  | fin d => exact decToChars_ne_nil d
  | inf neg => cases neg <;> decide
  | nan sig p =>
    simp only [pyDecValToChars]
    intro h
    rcases List.append_eq_nil.mp h with ⟨h1, _⟩
    revert h1
    split <;> decide

theorem decSpecialParse_decToChars (d : PyDecimal) :
    decSpecialParse (decToChars d) = Option.none := by
  obtain ⟨c, rest, hbody, k, hk, hck⟩ := decBodyChars_head d
  obtain ⟨hi, hn, hs⟩ := digitChar_ne_ins hk
  have hsnd : (parseSign (decToChars d)).2 = c :: rest := by
    rw [decToChars, hbody]
    by_cases hm : d.m < 0
    · rw [if_pos hm, List.singleton_append, parseSign_dash]
    · rw [if_neg hm, List.nil_append,
        parseSign_other c rest (by rw [hck]; exact digitChar_ne_dash hk)
          (by rw [hck]; exact digitChar_ne_plus hk)]
  have hlow : (c :: rest).map Char.toLower = digitChar k :: rest.map Char.toLower := by
    rw [List.map_cons, hck, toLower_digitChar hk]
  simp only [decSpecialParse, hsnd, hlow]
  rw [if_neg (by
      intro hcase
      rcases hcase with h | h
      · injection h with h1 _
        exact hi h1
      · injection h with h1 _
        exact hi h1)]
  rw [if_neg (by
      intro hcase
      rw [show List.take 3 (digitChar k :: rest.map Char.toLower)
          = digitChar k :: List.take 2 (rest.map Char.toLower) from rfl] at hcase
      injection hcase with h1 _
      exact hn h1)]
  rw [if_neg (by
      intro hcase
      rw [show List.take 4 (digitChar k :: rest.map Char.toLower)
          = digitChar k :: List.take 3 (rest.map Char.toLower) from rfl] at hcase
      injection hcase with h1 _
      exact hs h1)]

theorem parseNanPayload_digits (ds : List ℕ) (h : ∀ x ∈ ds, x < 10) :
    parseNanPayload (ds.map digitChar) = some (digitsToNat ds) := by
  have htd : takeDigits (ds.map digitChar) = (ds, []) := by
    have h2 := takeDigits_run ds [] h (by intro c hc; simp at hc)
    rwa [List.append_nil] at h2
  simp [parseNanPayload, htd]

/-- `Decimal(str(v)) == v`, representation for representation, for every
`Decimal` value — finite or special. -/
theorem decFromString_pyDecValToChars (v : PyDecVal) :
    decFromString (pyDecValToChars v) = some v := by
  cases v with
  | fin d =>
    have ht : ((pyStripChars (decToChars d)).filter fun c => c != '_')
        = decToChars d := by
      rw [pyStripChars_of_not_space _ (decToChars_not_space d),
        filter_ne_underscore _ (decToChars_ne_underscore d)]
    simp only [pyDecValToChars, decFromString, ht, decSpecialParse_decToChars,
      decParseChars_decToChars, Option.map_some', Option.elim]
  | inf neg => cases neg <;> decide
  | nan sig p =>
    by_cases hp : p = 0
    · subst hp
      cases sig <;> decide
    · have hlt : ∀ x ∈ coeffDigits p, x < 10 := coeffDigits_lt _
      have ht : ((pyStripChars (pyDecValToChars (.nan sig p))).filter fun c => c != '_')
          = pyDecValToChars (.nan sig p) := by
        rw [pyStripChars_of_not_space _ (pyDecValToChars_not_space _),
          filter_ne_underscore _ (pyDecValToChars_ne_underscore _)]
      simp only [decFromString, ht]
      cases sig
      · have hchars : pyDecValToChars (.nan false p)
            = 'N' :: 'a' :: 'N' :: (coeffDigits p).map digitChar := by
          simp only [pyDecValToChars, if_neg hp]
          rfl
        rw [hchars]
        have hsnd : (parseSign ('N' :: 'a' :: 'N' :: (coeffDigits p).map digitChar)).2
            = 'N' :: 'a' :: 'N' :: (coeffDigits p).map digitChar := by
          rw [parseSign_other _ _ (by decide) (by decide)]
        have hlow : ('N' :: 'a' :: 'N' :: (coeffDigits p).map digitChar).map Char.toLower
            = 'n' :: 'a' :: 'n' :: (coeffDigits p).map digitChar := by
          rw [List.map_cons, List.map_cons, List.map_cons, map_toLower_digitChars _ hlt]
          rfl
        simp only [decSpecialParse, hsnd, hlow]
        rw [if_neg (by
            intro hcase
            rcases hcase with h | h
            · injection h with h1 _
              exact absurd h1 (by decide)
            · injection h with h1 _
              exact absurd h1 (by decide))]
        rw [if_pos (show List.take 3 ('n' :: 'a' :: 'n' :: (coeffDigits p).map digitChar)
            = ['n', 'a', 'n'] from rfl)]
        rw [show ('n' :: 'a' :: 'n' :: (coeffDigits p).map digitChar).drop 3
            = (coeffDigits p).map digitChar from rfl]
        rw [parseNanPayload_digits _ hlt, digitsToNat_coeffDigits]
        rfl
      · have hchars : pyDecValToChars (.nan true p)
            = 's' :: 'N' :: 'a' :: 'N' :: (coeffDigits p).map digitChar := by
          simp only [pyDecValToChars, if_neg hp]
          rfl
        rw [hchars]
        have hsnd : (parseSign ('s' :: 'N' :: 'a' :: 'N' :: (coeffDigits p).map digitChar)).2
            = 's' :: 'N' :: 'a' :: 'N' :: (coeffDigits p).map digitChar := by
          rw [parseSign_other _ _ (by decide) (by decide)]
        have hlow : ('s' :: 'N' :: 'a' :: 'N' :: (coeffDigits p).map digitChar).map Char.toLower
            = 's' :: 'n' :: 'a' :: 'n' :: (coeffDigits p).map digitChar := by
          rw [List.map_cons, List.map_cons, List.map_cons, List.map_cons,
            map_toLower_digitChars _ hlt]
          rfl
        simp only [decSpecialParse, hsnd, hlow]
        rw [if_neg (by
            intro hcase
            rcases hcase with h | h
            · injection h with h1 _
              exact absurd h1 (by decide)
            · injection h with h1 _
              exact absurd h1 (by decide))]
        rw [if_neg (by
            rw [show List.take 3 ('s' :: 'n' :: 'a' :: 'n' :: (coeffDigits p).map digitChar)
                = ['s', 'n', 'a'] from rfl]
            decide)]
        rw [if_pos (show List.take 4 ('s' :: 'n' :: 'a' :: 'n' :: (coeffDigits p).map digitChar)
            = ['s', 'n', 'a', 'n'] from rfl)]
        rw [show ('s' :: 'n' :: 'a' :: 'n' :: (coeffDigits p).map digitChar).drop 4
            = (coeffDigits p).map digitChar from rfl]
        rw [parseNanPayload_digits _ hlt, digitsToNat_coeffDigits]
        rfl

/-- `_to_decimal(str(v))` recovers `v` exactly. -/
theorem to_decimal_pyDecValToString (v : PyDecVal) :
    to_decimal (some (pyDecValToString v)) = .ok (some v) := by
  rw [to_decimal]
  have hdata : (pyDecValToString v).data = pyDecValToChars v := rfl
  rw [hdata, pyStripChars_of_not_space _ (pyDecValToChars_not_space v)]
  rw [if_neg (pyDecValToChars_ne_nil v), decFromString_pyDecValToChars]

/-! ## Lemmas: the CSV codec round trip -/

theorem parseQuotedBody_cons (c : Char) (cs : List Char) :
    parseQuotedBody (c :: cs) =
      if c = '"' then
        match cs with
        | [] => some ([], [])
        | c2 :: cs2 =>
          if c2 = '"' then (parseQuotedBody cs2).map fun p => ('"' :: p.1, p.2)
          else some ([], c2 :: cs2)
      else (parseQuotedBody cs).map fun p => (c :: p.1, p.2) := by
  rw [parseQuotedBody.eq_def]

theorem parseQuotedBody_escape (f rest : List Char)
    (hrest : ∀ c, rest.head? = some c → c ≠ '"') :
    parseQuotedBody (escapeQuotes f ++ '"' :: rest) = some (f, rest) := by
  induction f with
  | nil =>
    rw [escapeQuotes, List.nil_append, parseQuotedBody_cons, if_pos rfl]
    match rest with
    | [] => rfl
    | c2 :: cs2 =>
      simp only []
      rw [if_neg (hrest c2 rfl)]
  | cons c f ih =>
    rw [escapeQuotes]
    by_cases hc : c = '"'
    · subst hc
      rw [if_pos rfl, List.cons_append, List.cons_append, parseQuotedBody_cons, if_pos rfl]
      simp only []
      rw [if_pos trivial, ih]
      rfl
    · rw [if_neg hc, List.cons_append, parseQuotedBody_cons, if_neg hc, ih]
      rfl

theorem takeUnquoted_run (f rest : List Char)
    (hf : ∀ c ∈ f, stopChar c = false)
    (hrest : ∀ c, rest.head? = some c → stopChar c = true) :
    takeUnquoted (f ++ rest) = (f, rest) := by
  induction f with
  | nil =>
    rw [List.nil_append]
    match rest with
    | [] => rfl
    | c :: cs =>
      rw [takeUnquoted, if_pos (hrest c rfl)]
  | cons c f ih =>
    rw [List.cons_append, takeUnquoted, if_neg (by
      rw [hf c (List.mem_cons_self _ _)]
      simp)]
    rw [ih (fun x hx => hf x (List.mem_cons_of_mem _ hx))]

theorem stopChar_special {c : Char} (h : stopChar c = true) : specialChar c = true := by
  simp only [stopChar, Bool.or_eq_true, decide_eq_true_eq] at h
  simp only [specialChar, Bool.or_eq_true, decide_eq_true_eq]
  tauto

theorem stopChar_ne_quote {c : Char} (h : stopChar c = true) : c ≠ '"' := by
  intro he
  rw [he] at h
  exact absurd h (by decide)

theorem parseField_writeField (f rest : List Char)
    (hrest : ∀ c, rest.head? = some c → stopChar c = true) :
    parseField (writeField f ++ rest) = some (f, rest) := by
  rw [writeField]
  by_cases hq : f.any specialChar
  · rw [if_pos hq]
    have hassoc : (('"' :: (escapeQuotes f ++ ['"'])) ++ rest)
        = '"' :: (escapeQuotes f ++ '"' :: rest) := by
      simp
    rw [hassoc, parseField, if_pos rfl]
    exact parseQuotedBody_escape f rest (fun c hc => stopChar_ne_quote (hrest c hc))
  · rw [if_neg hq]
    have hf : ∀ c ∈ f, stopChar c = false := by
      intro c hc
      rcases Bool.eq_false_or_eq_true (stopChar c) with h | h
      · have hca : f.any specialChar = true := List.any_eq_true.mpr ⟨c, hc, stopChar_special h⟩
        exact absurd hca hq
      · exact h
    match f with
    | [] =>
      rw [List.nil_append]
      match rest with
      | [] => rfl
      | c :: cs =>
        have hstop := hrest c rfl
        rw [parseField, if_neg (stopChar_ne_quote hstop)]
        rw [takeUnquoted, if_pos hstop]
    | a :: f' =>
      have ha : stopChar a = false := hf a (List.mem_cons_self _ _)
      have hane : a ≠ '"' := by
        intro he
        have hca : (a :: f').any specialChar = true :=
          List.any_eq_true.mpr ⟨a, List.mem_cons_self a f', by rw [he]; decide⟩
        exact hq hca
      rw [List.cons_append, parseField, if_neg hane, ← List.cons_append]
      rw [takeUnquoted_run (a :: f') rest hf hrest]

theorem parseFieldsF_succ (fuel : ℕ) (cs : List Char) :
    parseFieldsF (fuel + 1) cs =
      match parseField cs with
      | none => none
      | some (f, rest) =>
        match rest with
        | [] => some ([f], [])
        | c :: rest2 =>
          if c = ',' then (parseFieldsF fuel rest2).map fun p => (f :: p.1, p.2)
          else some ([f], c :: rest2) := by
  rw [parseFieldsF.eq_def]

theorem parseFieldsF_run (fs : List (List Char)) (rest : List Char) (fuel : ℕ)
    (hfs : fs ≠ []) (hfuel : fs.length ≤ fuel)
    (hrest : ∀ c, rest.head? = some c → (c = '\r' ∨ c = '\n')) :
    parseFieldsF fuel (fieldsChars fs ++ rest) = some (fs, rest) := by
  induction fs generalizing fuel with
  | nil => exact absurd rfl hfs
  | cons f fs ih =>
    obtain ⟨fuel', rfl⟩ : ∃ k, fuel = k + 1 := by
      cases fuel with
      | zero => simp at hfuel
      | succ k => exact ⟨k, rfl⟩
    have hreststop : ∀ c, rest.head? = some c → stopChar c = true := by
      intro c hc
      rcases hrest c hc with h | h <;> rw [h] <;> decide
    match fs with
    | [] =>
      rw [fieldsChars, parseFieldsF_succ, parseField_writeField f rest hreststop]
      simp only []
      match rest with
      | [] => rfl
      | c :: rest2 =>
        simp only []
        rw [if_neg (by
          intro he
          rcases hrest c rfl with h | h <;> rw [he] at h <;> exact absurd h (by decide))]
    | f2 :: fs' =>
      have hfc : fieldsChars (f :: f2 :: fs')
          = writeField f ++ ',' :: fieldsChars (f2 :: fs') := rfl
      rw [hfc]
      have hassoc : ((writeField f ++ ',' :: fieldsChars (f2 :: fs')) ++ rest)
          = writeField f ++ (',' :: (fieldsChars (f2 :: fs') ++ rest)) := by
        simp
      rw [hassoc, parseFieldsF_succ,
        parseField_writeField f (',' :: (fieldsChars (f2 :: fs') ++ rest))
          (by intro c hc; simp at hc; rw [← hc]; decide)]
      simp only []
      rw [if_pos trivial]
      rw [ih fuel' (by simp) (by simp at hfuel ⊢; omega)]
      rfl

theorem fieldsChars_length (fs : List (List Char)) :
    fs.length ≤ (fieldsChars fs).length + 1 := by
  induction fs with
  | nil => simp
  | cons f fs ih =>
    match fs with
    | [] => simp
    | f2 :: fs' =>
      have hfc : fieldsChars (f :: f2 :: fs')
          = writeField f ++ ',' :: fieldsChars (f2 :: fs') := rfl
      rw [hfc]
      simp only [List.length_append, List.length_cons] at ih ⊢
      omega

theorem csvWriteChars_length (recs : List (List (List Char))) :
    recs.length ≤ (csvWriteChars recs).length := by
  induction recs with
  | nil => simp
  | cons r recs ih =>
    rw [csvWriteChars, List.map_cons, List.flatten_cons, ← csvWriteChars]
    simp only [List.length_append, List.length_cons, recordChars, List.length_append]
    simp
    omega

theorem parseRecordsF_succ (fuel : ℕ) (cs : List Char) :
    parseRecordsF (fuel + 1) cs =
      if cs.isEmpty then some []
      else
        match parseFieldsF (cs.length + 1) cs with
        | none => none
        | some (fs, rest) =>
          match rest with
          | [] => some [fs]
          | c :: rest2 =>
            if c = '\n' then (parseRecordsF fuel rest2).map fun rs => fs :: rs
            else if c = '\r' then
              match rest2 with
              | [] => none
              | c2 :: rest3 =>
                if c2 = '\n' then (parseRecordsF fuel rest3).map fun rs => fs :: rs
                else none
            else none := by
  rw [parseRecordsF.eq_def]

theorem parseRecordsF_run (recs : List (List (List Char))) (fuel : ℕ)
    (hr : ∀ r ∈ recs, r ≠ []) (hfuel : recs.length < fuel) :
    parseRecordsF fuel (csvWriteChars recs) = some recs := by
  induction recs generalizing fuel with
  | nil =>
    obtain ⟨fuel', rfl⟩ : ∃ k, fuel = k + 1 := by
      cases fuel with
      | zero => simp at hfuel
      | succ k => exact ⟨k, rfl⟩
    rfl
  | cons r recs ih =>
    obtain ⟨fuel', rfl⟩ : ∃ k, fuel = k + 1 := by
      cases fuel with
      | zero => simp at hfuel
      | succ k => exact ⟨k, rfl⟩
    have hsplit : csvWriteChars (r :: recs)
        = fieldsChars r ++ ('\r' :: '\n' :: csvWriteChars recs) := by
      rw [csvWriteChars, List.map_cons, List.flatten_cons, ← csvWriteChars, recordChars]
      simp
    rw [hsplit]
    have hne : fieldsChars r ++ ('\r' :: '\n' :: csvWriteChars recs) ≠ [] := by
      intro hcontra
      rcases List.append_eq_nil.mp hcontra with ⟨_, h2⟩
      exact List.cons_ne_nil _ _ h2
    rw [parseRecordsF_succ]
    rw [if_neg (by
      intro hcontra
      exact hne (List.isEmpty_iff.mp hcontra))]
    rw [parseFieldsF_run r ('\r' :: '\n' :: csvWriteChars recs) _
      (hr r (List.mem_cons_self _ _))
      (by
        have h1 := fieldsChars_length r
        have h2 : (fieldsChars r).length
            ≤ (fieldsChars r ++ ('\r' :: '\n' :: csvWriteChars recs)).length := by
          simp
        omega)
      (by intro c hc; simp at hc; rw [← hc]; left; rfl)]
    simp only []
    rw [if_pos trivial, if_pos trivial]
    rw [ih fuel' (fun x hx => hr x (List.mem_cons_of_mem _ hx)) (by simp at hfuel ⊢; omega)]
    rfl

theorem csvReadChars_csvWriteChars (recs : List (List (List Char)))
    (hr : ∀ r ∈ recs, r ≠ []) :
    csvReadChars (csvWriteChars recs) = some recs := by
  rw [csvReadChars]
  exact parseRecordsF_run recs _ hr (by have := csvWriteChars_length recs; omega)

theorem csvRead_csvWrite (recs : List (List String)) (hr : ∀ r ∈ recs, r ≠ []) :
    csvRead (csvWrite recs) = some recs := by
  rw [csvRead, csvWrite]
  have hdata : (String.mk (csvWriteChars (recs.map (List.map String.data)))).data
      = csvWriteChars (recs.map (List.map String.data)) := rfl
  rw [hdata]
  rw [csvReadChars_csvWriteChars _ (by
    intro r hrm
    rcases List.mem_map.mp hrm with ⟨r0, hr0, hr0m⟩
    rw [← hr0m]
    intro hcontra
    exact hr r0 hr0 (List.map_eq_nil_iff.mp hcontra))]
  rw [Option.map_some']
  congr 1
  rw [List.map_map]
  have h2 : ∀ r : List String, (List.map String.mk ∘ List.map String.data) r = r := by
    intro r
    rw [Function.comp_apply, List.map_map]
    have h3 : ∀ s ∈ r, (String.mk ∘ String.data) s = s := by
      intro s _
      rfl
    rw [List.map_congr_left h3]
    exact List.map_id r
  rw [List.map_congr_left (fun r _ => h2 r)]
  exact List.map_id recs

theorem serialize_elim_roundtrip (od : Option PyDecVal) :
    to_decimal (some (serializeVal (od.elim PyVal.none PyVal.dec))) = .ok od := by
  cases od with
  | none => rfl
  | some v => exact to_decimal_pyDecValToString v

set_option maxHeartbeats 3200000 in
/-- Re-parsing the record written for a parsed row recovers the row. -/
theorem rowOfRecord_roundtrip (rec : List String) (row : Row)
    (hlen : rec.length = 16) (h : rowOfRecord csvHeaders rec = .ok row) :
    rowOfRecord csvHeaders (recordOfRow row) = .ok row := by
  obtain ⟨a0, rec, rfl⟩ : ∃ x xs, rec = x :: xs := by
    cases rec with
    | nil => simp at hlen
    | cons x xs => exact ⟨x, xs, rfl⟩
  obtain ⟨a1, rec, rfl⟩ : ∃ x xs, rec = x :: xs := by
    cases rec with
    | nil => simp at hlen
    | cons x xs => exact ⟨x, xs, rfl⟩
  obtain ⟨a2, rec, rfl⟩ : ∃ x xs, rec = x :: xs := by
    cases rec with
    | nil => simp at hlen
    | cons x xs => exact ⟨x, xs, rfl⟩
  obtain ⟨a3, rec, rfl⟩ : ∃ x xs, rec = x :: xs := by
    cases rec with
    | nil => simp at hlen
    | cons x xs => exact ⟨x, xs, rfl⟩
  obtain ⟨a4, rec, rfl⟩ : ∃ x xs, rec = x :: xs := by
    cases rec with
    | nil => simp at hlen
    | cons x xs => exact ⟨x, xs, rfl⟩
  obtain ⟨a5, rec, rfl⟩ : ∃ x xs, rec = x :: xs := by
    cases rec with
    | nil => simp at hlen
    | cons x xs => exact ⟨x, xs, rfl⟩
  obtain ⟨a6, rec, rfl⟩ : ∃ x xs, rec = x :: xs := by
    cases rec with
    | nil => simp at hlen
    | cons x xs => exact ⟨x, xs, rfl⟩
  obtain ⟨a7, rec, rfl⟩ : ∃ x xs, rec = x :: xs := by
    cases rec with
    | nil => simp at hlen
    | cons x xs => exact ⟨x, xs, rfl⟩
  obtain ⟨a8, rec, rfl⟩ : ∃ x xs, rec = x :: xs := by
    cases rec with
    | nil => simp at hlen
    | cons x xs => exact ⟨x, xs, rfl⟩
  obtain ⟨a9, rec, rfl⟩ : ∃ x xs, rec = x :: xs := by
    cases rec with
    | nil => simp at hlen
    | cons x xs => exact ⟨x, xs, rfl⟩
  obtain ⟨a10, rec, rfl⟩ : ∃ x xs, rec = x :: xs := by
    cases rec with
    | nil => simp at hlen
    | cons x xs => exact ⟨x, xs, rfl⟩
  obtain ⟨a11, rec, rfl⟩ : ∃ x xs, rec = x :: xs := by
    cases rec with
    | nil => simp at hlen
    | cons x xs => exact ⟨x, xs, rfl⟩
  obtain ⟨a12, rec, rfl⟩ : ∃ x xs, rec = x :: xs := by
    cases rec with
    | nil => simp at hlen
    | cons x xs => exact ⟨x, xs, rfl⟩
  obtain ⟨a13, rec, rfl⟩ : ∃ x xs, rec = x :: xs := by
    cases rec with
    | nil => simp at hlen
    | cons x xs => exact ⟨x, xs, rfl⟩
  obtain ⟨a14, rec, rfl⟩ : ∃ x xs, rec = x :: xs := by
    cases rec with
    | nil => simp at hlen
    | cons x xs => exact ⟨x, xs, rfl⟩
  obtain ⟨a15, rec, rfl⟩ : ∃ x xs, rec = x :: xs := by
    cases rec with
    | nil => simp at hlen
    | cons x xs => exact ⟨x, xs, rfl⟩
  obtain rfl : rec = [] := by
    cases rec with
    | nil => rfl
    | cons x xs => simp at hlen
  cases ha8 : to_decimal (some a8) with
  | error e => simp [rowOfRecord, mapME, CSV_COLUMN_MAP, PRICE_FIELDS, fieldValue, rawGet, dictRow, lookupLast, csvHeaders, Except.map, ha8] at h
  | ok od8 =>
  cases ha9 : to_decimal (some a9) with
  | error e => simp [rowOfRecord, mapME, CSV_COLUMN_MAP, PRICE_FIELDS, fieldValue, rawGet, dictRow, lookupLast, csvHeaders, Except.map, ha8, ha9] at h
  | ok od9 =>
  cases ha10 : to_decimal (some a10) with
  | error e => simp [rowOfRecord, mapME, CSV_COLUMN_MAP, PRICE_FIELDS, fieldValue, rawGet, dictRow, lookupLast, csvHeaders, Except.map, ha8, ha9, ha10] at h
  | ok od10 =>
  cases ha11 : to_decimal (some a11) with
  | error e => simp [rowOfRecord, mapME, CSV_COLUMN_MAP, PRICE_FIELDS, fieldValue, rawGet, dictRow, lookupLast, csvHeaders, Except.map, ha8, ha9, ha10, ha11] at h
  | ok od11 =>
  cases ha14 : to_decimal (some a14) with
  | error e => simp [rowOfRecord, mapME, CSV_COLUMN_MAP, PRICE_FIELDS, fieldValue, rawGet, dictRow, lookupLast, csvHeaders, Except.map, ha8, ha9, ha10, ha11, ha14] at h
  | ok od14 =>
  simp [rowOfRecord, mapME, CSV_COLUMN_MAP, PRICE_FIELDS, fieldValue, rawGet, dictRow, lookupLast, csvHeaders, Except.map, ha8, ha9, ha10, ha11, ha14] at h
  subst h
  have hstr : ∀ s : String, serializeVal (PyVal.str s) = s := fun s => rfl
  simp [rowOfRecord, mapME, CSV_COLUMN_MAP, PRICE_FIELDS, fieldValue, rawGet, dictRow, lookupLast, csvHeaders, Except.map, recordOfRow, rowGet?, hstr, serialize_elim_roundtrip]

theorem mapME_cons (f : α → Except ParseErr β) (x : α) (xs : List α) :
    mapME f (x :: xs) =
      match f x with
      | .error e => .error e
      | .ok b => (mapME f xs).map fun bs => b :: bs := by
  rw [mapME.eq_def]

theorem mapME_cons_ok {f : α → Except ParseErr β} {x : α} {xs : List α} {l : List β}
    (h : mapME f (x :: xs) = .ok l) :
    ∃ b bs, f x = .ok b ∧ mapME f xs = .ok bs ∧ l = b :: bs := by
  rw [mapME_cons] at h
  cases hfx : f x with
  | error e =>
    rw [hfx] at h
    simp at h
  | ok b =>
    rw [hfx] at h
    simp only [] at h
    cases hrest : mapME f xs with
    | error e =>
      rw [hrest] at h
      simp [Except.map] at h
    | ok bs =>
      rw [hrest] at h
      simp [Except.map] at h
      exact ⟨b, bs, rfl, rfl, h.symm⟩

theorem mapME_ok_mem {f : α → Except ParseErr β} :
    ∀ {xs : List α} {l : List β}, mapME f xs = .ok l →
      ∀ a ∈ xs, ∃ b, f a = .ok b := by
  intro xs
  induction xs with
  | nil =>
    intro l _ a ha
    simp at ha
  | cons x xs ih =>
    intro l h a ha
    obtain ⟨b, bs, hfx, hrest, _⟩ := mapME_cons_ok h
    rcases List.mem_cons.mp ha with rfl | ha2
    · exact ⟨b, hfx⟩
    · exact ih hrest a ha2

theorem except_map_ok {f : β → γ} {x : Except ParseErr β} {v : γ}
    (h : x.map f = .ok v) : ∃ b, x = .ok b := by
  cases x with
  | error e => simp [Except.map] at h
  | ok b => exact ⟨b, rfl⟩

theorem recordOfRow_length (row : Row) : (recordOfRow row).length = 16 := by
  rw [recordOfRow, List.length_map]
  rfl

theorem recordOfRow_ne_nil (row : Row) : recordOfRow row ≠ [] := by
  intro h
  have := recordOfRow_length row
  rw [h] at this
  simp at this

theorem mapME_rowOfRecord_roundtrip (recs : List (List String)) (rows : List Row)
    (hlen : ∀ r ∈ recs, r.length = 16)
    (h : mapME (rowOfRecord csvHeaders) recs = .ok rows) :
    mapME (rowOfRecord csvHeaders) (rows.map recordOfRow) = .ok rows := by
  induction recs generalizing rows with
  | nil =>
    rw [mapME] at h
    simp at h
    subst h
    rfl
  | cons r recs ih =>
    obtain ⟨b, bs, hb, hbs, rfl⟩ := mapME_cons_ok h
    rw [List.map_cons, mapME_cons]
    rw [rowOfRecord_roundtrip r b (hlen r (List.mem_cons_self _ _)) hb]
    simp only []
    rw [ih bs (fun x hx => hlen x (List.mem_cons_of_mem _ hx)) hbs]
    rfl

/-! ## Claim C1: the CSV round trip -/

/-- C1.  For every valid CSV text `x` in the 16-column dialect (the reader
accepts it, its header is the canonical one, every data record has 16
cells) whose rows parse, re-parsing the emission of the parsed rows yields
exactly the same rows: `parse_csv (generate_csv (parse_csv x)) =
parse_csv x`, field for field (currency fields as equal `Decimal`s or both
absent, passthrough fields as equal strings, rows in order) — here proved
as on-the-nose equality of the normalized rows, which implies
field-equality, even though `generate_csv (parse_csv x)` need not equal `x`
byte for byte. -/
theorem c1_parse_generate_parse_roundtrip (x : String) (recs : List (List String))
    (rows : List Row)
    (hread : csvRead x = some (csvHeaders :: recs))
    (hlen : ∀ r ∈ recs, r.length = 16)
    (hparse : parse_csv x = .ok rows) :
    parse_csv (generate_csv rows) = .ok rows := by
  have hx : mapME (rowOfRecord csvHeaders) recs = .ok rows := by
    rw [parse_csv.eq_def, hread] at hparse
    exact hparse
  have hread2 : csvRead (generate_csv rows)
      = some (csvHeaders :: rows.map recordOfRow) := by
    rw [generate_csv]
    refine csvRead_csvWrite _ ?_
    intro r hr
    rcases List.mem_cons.mp hr with h | h
    · subst h
      intro hcontra
      exact absurd (congrArg List.length hcontra) (by decide)
    · rcases List.mem_map.mp h with ⟨row, _, hrow⟩
      rw [← hrow]
      exact recordOfRow_ne_nil row
  rw [parse_csv.eq_def, hread2]
  exact mapME_rowOfRecord_roundtrip recs rows hlen hx

set_option maxRecDepth 100000 in
/-- Witness for C1 at the repository's own test CSV. -/
theorem c1_witness :
    parse_csv (generate_csv [sampleRow]) = .ok [sampleRow] :=
  c1_parse_generate_parse_roundtrip sampleCsv [sampleRec] [sampleRow]
    (by rfl)
    (by intro r hr; simp [sampleRec] at hr; subst hr; rfl)
    (by rfl)

/-! ## Claim C6: currency cells the `Decimal` constructor rejects are a
hard parse failure, but the constructor accepts some non-numeric texts -/

set_option maxRecDepth 100000 in
/-- C6 counterexample.  The non-numeric text `NaN` in the market-price
column does not make `parse_csv` fail: CPython's `Decimal()` accepts the
special values `NaN`/`sNaN`/`Infinity`, so the row list is produced, the
offending row carrying a `NaN` `Decimal` in `market_price` — refuting "when
`parse_csv` encounters non-numeric text in a currency column, it fails with
a ParseError". -/
theorem c6_counterexample :
    parse_csv sampleNanCsv = .ok [sampleNanRow] := by
  rfl

set_option maxRecDepth 100000 in
/-- C6 as amended.  Universally: if any record of a read CSV has, in any
currency column, a cell on which `_to_decimal` raises — text the `Decimal`
constructor rejects, `N/A` being one — then `parse_csv` returns an error:
no row list is produced at all, so nothing is coerced to zero, the cell is
not skipped, and no partial row appears.  Concretely, the `N/A` input
errors with a `ParseError` carrying that text; but a `NaN` cell —
non-numeric text the constructor does accept — parses and produces the
row. -/
theorem c6_rejected_currency_text_amended :
    (∀ (x : String) (hdr : List String) (recs : List (List String)),
        csvRead x = some (hdr :: recs) →
        (∃ rec ∈ recs, ∃ cf ∈ CSV_COLUMN_MAP, PRICE_FIELDS.contains cf.2 = true ∧
          ∃ e, to_decimal (rawGet hdr rec cf.1) = .error e) →
        ∃ e, parse_csv x = .error e) ∧
      parse_csv sampleBadCsv = .error (.badDecimal "N/A") ∧
      decFromString "NaN".data = some (.nan false 0) ∧
      parse_csv sampleNanCsv = .ok [sampleNanRow] := by
  refine ⟨?_, by rfl, by rfl, by rfl⟩
  intro x hdr recs hread hbad
  obtain ⟨rec, hrec, cf, hcf, hpr, e, herr⟩ := hbad
  rw [parse_csv.eq_def, hread]
  simp only []
  cases hm : mapME (rowOfRecord hdr) recs with
  | error e2 => exact ⟨e2, rfl⟩
  | ok rows =>
    exfalso
    obtain ⟨row, hrow⟩ := mapME_ok_mem hm rec hrec
    rw [rowOfRecord] at hrow
    obtain ⟨v, hv⟩ := mapME_ok_mem hrow cf hcf
    obtain ⟨v2, hv2⟩ := except_map_ok hv
    rw [fieldValue, if_pos hpr] at hv2
    obtain ⟨v3, hv3⟩ := except_map_ok hv2
    rw [herr] at hv3
    exact Except.noConfusion hv3

/-! ## Lemmas: the half-up quantization -/

theorem quantize2_ge_min {x : ℚ} (h : 1 / 100 ≤ x) : 1 / 100 ≤ quantize2 x := by
  rw [quantize2, roundHalfUpInt, if_pos (by linarith)]
  have h1 : (1 : ℤ) ≤ ⌊x * 100 + 1 / 2⌋ := by
    rw [Int.le_floor]
    push_cast
    linarith
  have h2 : (1 : ℚ) ≤ (⌊x * 100 + 1 / 2⌋ : ℚ) := by exact_mod_cast h1
  linarith

/-! ## Claim C2: the absolute minimum invariant -/

/-- C2.  For all inputs — any non-negative prices, any strategy (the three
enum members or anything else), any optional undercut percentage and floor
price — `calculate_price` returns a value that is non-negative and at least
0.01. -/
theorem c2_calculate_price_absolute_minimum (c t m : ℚ) (s : RepricingStrategy)
    (u f : Option ℚ) (hc : 0 ≤ c) (ht : 0 ≤ t) (hm : 0 ≤ m) :
    0 ≤ calculate_price c t m s u f ∧
      ABSOLUTE_MINIMUM ≤ calculate_price c t m s u f := by
  have key : ABSOLUTE_MINIMUM ≤ calculate_price c t m s u f := by
    simp only [calculate_price, ABSOLUTE_MINIMUM]
    apply quantize2_ge_min
    split
    · exact le_refl _
    · rename_i hlt
      linarith [not_lt.mp hlt]
  refine ⟨?_, key⟩
  simp only [ABSOLUTE_MINIMUM] at key
  linarith

/-- Witness for C2 at the repository's own test inputs. -/
theorem c2_witness :
    0 ≤ calculate_price 15 (25/2) 14 .MATCH_LOW Option.none Option.none ∧
      ABSOLUTE_MINIMUM ≤ calculate_price 15 (25/2) 14 .MATCH_LOW Option.none Option.none :=
  c2_calculate_price_absolute_minimum 15 (25/2) 14 .MATCH_LOW Option.none Option.none
    (by norm_num) (by norm_num) (by norm_num)

/-! ## Claim C3: the UNDERCUT candidate -/

/-- C3 counterexample.  With `undercut_pct` absent the candidate is NOT
always `tcg_low` itself: at `tcg_low = 2.005` the candidate is `2.01`
(the candidate is quantized half-up to 2 places right after the
multiplication, and `2.005` has three fractional digits), and
`2.01 ≠ 2.005`. -/
theorem c3_counterexample :
    undercutCandidate (401/200) Option.none = 201/100 ∧
      (201/100 : ℚ) ≠ 401/200 := by
  constructor
  · rw [undercutCandidate]
    norm_num [quantize2, roundHalfUpInt]
  · norm_num

/-- C3 as amended.  Under UNDERCUT the candidate is
`tcg_low * (1 - undercut_pct/100)` rounded half-up to 2 places immediately
after the multiplication; `calculate_price` with `tcg_low = 12.50` and
`undercut_pct = 5` returns exactly `11.88`; and an absent `undercut_pct` is
treated as 0, so the candidate is `tcg_low` rounded half-up to 2 places
(equal to `tcg_low` whenever `tcg_low` has at most 2 fractional digits). -/
theorem c3_undercut_amended :
    (∀ t u : ℚ, undercutCandidate t (some u) = quantize2 (t * (1 - u / 100))) ∧
    (∀ c m : ℚ, calculate_price c (25/2) m .UNDERCUT (some 5) Option.none = 1188/100) ∧
    (∀ t : ℚ, undercutCandidate t Option.none = quantize2 t) := by
  refine ⟨fun t u => rfl, fun c m => ?_, fun t => ?_⟩
  · simp only [calculate_price]
    have hcand : strategyCandidate c (25/2) m .UNDERCUT (some 5) = 1188/100 := by
      rw [strategyCandidate, undercutCandidate]
      norm_num [quantize2, roundHalfUpInt]
    rw [hcand]
    norm_num [ABSOLUTE_MINIMUM, quantize2, roundHalfUpInt]
  · rw [undercutCandidate]
    norm_num

/-! ## Claim C4: floor, then absolute minimum, then final rounding -/

/-- C4.  `calculate_price` post-processes the strategy candidate in the
spec's fixed order — floor clamp first, one-cent clamp second, final
half-up rounding to 2 places last (`specPostProcess` is written from the
spec's words) — so a floor below 0.01 is accepted and then overridden by
the one-cent clamp, and the spec's floor-enforcement example evaluates to
1.00. -/
theorem c4_postprocessing_order :
    (∀ (c t m : ℚ) (s : RepricingStrategy) (u f : Option ℚ),
        calculate_price c t m s u f = specPostProcess f (strategyCandidate c t m s u)) ∧
    calculate_price 15 (1/2) (3/4) .MATCH_LOW Option.none (some 1) = 1 ∧
    calculate_price (1/10) (1/1000) (1/100) .MATCH_LOW Option.none (some (1/200)) = 1/100 := by
  refine ⟨fun c t m s u f => rfl, ?_, ?_⟩
  · simp only [calculate_price]
    have hcand : strategyCandidate 15 (1/2) (3/4) .MATCH_LOW Option.none = 1/2 := rfl
    rw [hcand]
    norm_num [ABSOLUTE_MINIMUM, quantize2, roundHalfUpInt]
  · simp only [calculate_price]
    have hcand : strategyCandidate (1/10) (1/1000) (1/100) .MATCH_LOW Option.none
        = 1/1000 := rfl
    rw [hcand]
    norm_num [ABSOLUTE_MINIMUM, quantize2, roundHalfUpInt]

/-! ## Claim C5: unrecognized strategies -/

/-- C5 counterexample.  `calculate_price` called with a strategy value that
is none of the three enum members does NOT fail: it silently returns the
current price (here `5.00`), i.e. the `else` branch falls back to
`current_price` and no `InvalidStrategy` error exists in the code. -/
theorem c5_counterexample :
    calculate_price 5 10 12 (.other "bogus") Option.none Option.none = 5 := by
  simp only [calculate_price]
  have hcand : strategyCandidate 5 10 12 (.other "bogus") Option.none = 5 := rfl
  rw [hcand]
  norm_num [ABSOLUTE_MINIMUM, quantize2, roundHalfUpInt]

/-- C5 as amended.  With any strategy value outside the three enum members,
`calculate_price` silently falls back to `current_price` as the candidate
and applies the usual post-processing (floor, one-cent minimum, final
rounding); it raises no error. -/
theorem c5_unknown_strategy_silently_falls_back :
    ∀ (c t m : ℚ) (s : String) (u f : Option ℚ),
      calculate_price c t m (.other s) u f = specPostProcess f c :=
  fun c t m s u f => rfl

/-! ## Claim C7: the alert evaluation rules -/

/-- C7.  `evaluate_alert` implements exactly the spec's four ordered rules
(`alertSpec` is written from the spec's words): equal prices never trigger;
a zero baseline triggers exactly for directions `up` and `both`; otherwise
`up` triggers iff the unrounded percentage change is at least the
threshold, `down` iff it is at most the negated threshold, and `both` or
any other direction iff its absolute value is at least the threshold. -/
theorem c7_evaluate_alert_rules (o n t : ℚ) (d : String) :
    evaluate_alert o n t d = true ↔ alertSpec o n t d := by
  simp only [evaluate_alert, alertSpec]
  split_ifs <;>
    simp_all [decide_eq_true_eq]

/-! ## Claim C8: the threshold boundary -/

/-- C8 counterexample.  `evaluate_alert(10.00, 11.50, 15, up)` returns
`true`, not `false` as the claim states: the boundary comparison is `≥`,
so a change of exactly 15% triggers. -/
theorem c8_counterexample : evaluate_alert 10 (23/2) 15 "up" = true := by
  simp only [evaluate_alert]
  norm_num

/-- C8 as amended.  At the boundary `evaluate_alert(10.00, 11.50, 15, up)`
returns `true` (exactly 15% triggers, the comparison being `≥`), and the
strict-below case `evaluate_alert(10.00, 11.49, 15, up)` returns `false`. -/
theorem c8_threshold_boundary_amended :
    evaluate_alert 10 (23/2) 15 "up" = true ∧
      evaluate_alert 10 (1149/100) 15 "up" = false := by
  constructor <;> (simp only [evaluate_alert]; norm_num)

/-! ## Claim C9: batch application over parsed rows -/

theorem priceAbsentOrZero_iff (row : Row) (k : String)
    (hps : pricelike (rowGet? row k)) :
    priceAbsentOrZero row k ↔ priceOr0 (rowGet? row k) = 0 := by
  rw [priceAbsentOrZero.eq_def, priceOr0.eq_def]
  match hv : rowGet? row k with
  | Option.none => simp
  | some PyVal.none => simp
  | some (PyVal.dec (PyDecVal.fin d)) => simp
  | some (PyVal.dec (PyDecVal.inf b)) =>
    rw [hv] at hps
    exact absurd hps id
  | some (PyVal.dec (PyDecVal.nan b pl)) =>
    rw [hv] at hps
    exact absurd hps id
  | some (PyVal.str s) =>
    rw [hv] at hps
    exact absurd hps id

/-- C9 counterexample.  A row whose `current_listed_price` is present and
holds the `Decimal` `0.00`, with `tcg_low = 5.00`: `new_price` is computed
as `5.00`, and `new_price - current_price = 5.00`, yet `diff` is `0`
because the code guards the subtraction with the truthiness of `current`
(`if current`), not its presence — refuting "diff equals new_price minus
current_price when current_price is present". -/
theorem c9_counterexample :
    rowGet? c9ExampleRow "current_listed_price" = some (.dec (.fin ⟨0, -2⟩)) ∧
      batchNewPrice .MATCH_LOW Option.none Option.none c9ExampleRow = 5 ∧
      batchNewPrice .MATCH_LOW Option.none Option.none c9ExampleRow
          - rowCurrent c9ExampleRow = 5 ∧
      batchDiff .MATCH_LOW Option.none Option.none c9ExampleRow = 0 := by
  have hcur : rowCurrent c9ExampleRow = 0 := by
    simp [rowCurrent, priceOr0, c9ExampleRow, rowGet?, PyDecimal.toRat]
  have htl : rowTcgLow c9ExampleRow = 5 := by
    simp [rowTcgLow, priceOr0, c9ExampleRow, rowGet?, PyDecimal.toRat]
    norm_num
  have hmk : rowMarket c9ExampleRow = 0 := by
    simp [rowMarket, priceOr0, c9ExampleRow, rowGet?]
  have hnp : batchNewPrice .MATCH_LOW Option.none Option.none c9ExampleRow = 5 := by
    rw [batchNewPrice, if_pos (by rw [htl]; norm_num)]
    rw [hcur, htl, hmk]
    simp only [calculate_price]
    have hcand : strategyCandidate 0 5 0 .MATCH_LOW Option.none = 5 := rfl
    rw [hcand]
    norm_num [ABSOLUTE_MINIMUM, quantize2, roundHalfUpInt]
  refine ⟨by rfl, hnp, by rw [hnp, hcur]; norm_num, ?_⟩
  rw [batchDiff, if_neg (by rw [hcur]; simp)]

/-- C9 as amended.  Over parsed rows (currency fields hold `Decimal`s or
`None`): when `tcg_low` and `market_price` are both absent or zero,
`new_price` is the current price unchanged and no strategy runs; otherwise
`calculate_price` is called on the values with absent operands defaulted to
zero; and `diff` equals `new_price - current_price` when `current_price`
is present AND nonzero, else `0.00` (the code tests truthiness, so a
present but zero current price also yields `diff = 0`). -/
theorem c9_batch_application_amended (strat : RepricingStrategy) (u f : Option ℚ)
    (row : Row) (hw : WellPriced row) :
    ((priceAbsentOrZero row "tcg_low" ∧ priceAbsentOrZero row "market_price") →
        batchNewPrice strat u f row = rowCurrent row) ∧
    (¬ (priceAbsentOrZero row "tcg_low" ∧ priceAbsentOrZero row "market_price") →
        batchNewPrice strat u f row
          = calculate_price (rowCurrent row) (rowTcgLow row) (rowMarket row) strat u f) ∧
    (¬ priceAbsentOrZero row "current_listed_price" →
        batchDiff strat u f row = batchNewPrice strat u f row - rowCurrent row) ∧
    (priceAbsentOrZero row "current_listed_price" → batchDiff strat u f row = 0) := by
  have htl := priceAbsentOrZero_iff row "tcg_low" (hw _ (by decide))
  have hmk := priceAbsentOrZero_iff row "market_price" (hw _ (by decide))
  have hcu := priceAbsentOrZero_iff row "current_listed_price" (hw _ (by decide))
  have htl2 : priceAbsentOrZero row "tcg_low" ↔ rowTcgLow row = 0 := htl
  have hmk2 : priceAbsentOrZero row "market_price" ↔ rowMarket row = 0 := hmk
  have hcu2 : priceAbsentOrZero row "current_listed_price" ↔ rowCurrent row = 0 := hcu
  refine ⟨?_, ?_, ?_, ?_⟩
  · intro h
    rw [batchNewPrice, if_neg (by
      push_neg
      exact ⟨htl2.mp h.1, hmk2.mp h.2⟩)]
  · intro h
    rw [batchNewPrice, if_pos (by
      by_contra hc
      push_neg at hc
      exact h ⟨htl2.mpr hc.1, hmk2.mpr hc.2⟩)]
  · intro h
    rw [batchDiff, if_pos (fun hz => h (hcu2.mpr hz))]
  · intro h
    rw [batchDiff, if_neg (by
      push_neg
      exact hcu2.mp h)]

/-- Witness for C9 at the repository's own test row. -/
theorem c9_witness :
    ((priceAbsentOrZero sampleRow "tcg_low" ∧ priceAbsentOrZero sampleRow "market_price") →
        batchNewPrice .MATCH_LOW Option.none Option.none sampleRow = rowCurrent sampleRow) ∧
    (¬ (priceAbsentOrZero sampleRow "tcg_low" ∧ priceAbsentOrZero sampleRow "market_price") →
        batchNewPrice .MATCH_LOW Option.none Option.none sampleRow
          = calculate_price (rowCurrent sampleRow) (rowTcgLow sampleRow)
              (rowMarket sampleRow) .MATCH_LOW Option.none Option.none) ∧
    (¬ priceAbsentOrZero sampleRow "current_listed_price" →
        batchDiff .MATCH_LOW Option.none Option.none sampleRow
          = batchNewPrice .MATCH_LOW Option.none Option.none sampleRow
              - rowCurrent sampleRow) ∧
    (priceAbsentOrZero sampleRow "current_listed_price" →
        batchDiff .MATCH_LOW Option.none Option.none sampleRow = 0) :=
  c9_batch_application_amended .MATCH_LOW Option.none Option.none sampleRow
    (by decide)

/-! ## Claim C10: the emitter reads only the 16 mapped fields -/

theorem recordOfRow_congr (r1 r2 : Row)
    (h : ∀ k ∈ internalFields, rowGet? r1 k = rowGet? r2 k) :
    recordOfRow r1 = recordOfRow r2 := by
  rw [recordOfRow, recordOfRow]
  refine List.map_congr_left ?_
  intro cf hcf
  rw [h cf.2 (List.mem_map.mpr ⟨cf, hcf, rfl⟩)]

theorem find?_map_overwrite (row : Row) (k k' : String) (v : PyVal) (hne : k' ≠ k) :
    ((row.map fun p => if p.1 = k then (k, v) else p).find? fun p => p.1 = k')
      = row.find? fun p => p.1 = k' := by
  induction row with
  | nil => rfl
  | cons p row ih =>
    rw [List.map_cons]
    by_cases hp : p.1 = k
    · rw [if_pos hp]
      rw [List.find?_cons_of_neg _ (by simp only [decide_eq_true_eq]; exact Ne.symm hne),
        List.find?_cons_of_neg _ (by simp only [decide_eq_true_eq]; rw [hp]; exact Ne.symm hne),
        ih]
    · rw [if_neg hp]
      by_cases hp' : p.1 = k'
      · rw [List.find?_cons_of_pos _ (by simp [hp']), List.find?_cons_of_pos _ (by simp [hp'])]
      · rw [List.find?_cons_of_neg _ (by simp [hp']), List.find?_cons_of_neg _ (by simp [hp']),
          ih]

theorem find?_append_single (row : Row) (k k' : String) (v : PyVal) (hne : k' ≠ k) :
    ((row ++ [(k, v)]).find? fun p => p.1 = k') = row.find? fun p => p.1 = k' := by
  induction row with
  | nil =>
    rw [List.nil_append,
      List.find?_cons_of_neg _ (by simp only [decide_eq_true_eq]; exact Ne.symm hne)]
  | cons p row ih =>
    rw [List.cons_append]
    by_cases hp' : p.1 = k'
    · rw [List.find?_cons_of_pos _ (by simp [hp']), List.find?_cons_of_pos _ (by simp [hp'])]
    · rw [List.find?_cons_of_neg _ (by simp [hp']), List.find?_cons_of_neg _ (by simp [hp']),
        ih]

theorem rowGet?_rowSet_ne (row : Row) (k k' : String) (v : PyVal) (hne : k' ≠ k) :
    rowGet? (rowSet row k v) k' = rowGet? row k' := by
  rw [rowSet]
  split
  · rw [rowGet?, rowGet?, find?_map_overwrite row k k' v hne]
  · rw [rowGet?, rowGet?, find?_append_single row k k' v hne]

/-- C10.  `generate_csv` depends only on the 16 mapped internal fields of
each row: two row lists that agree on those fields pointwise produce
byte-identical CSV text; consequently adding any `new_price` value to every
row — as the download pipeline does — never changes the emitted text, so a
computed price can only reach the emitted "TCG Marketplace Price" column by
overwriting `current_listed_price` itself, which the pipeline does not
do. -/
theorem c10_generate_csv_reads_only_mapped_fields :
    (∀ rows1 rows2 : List Row,
        List.Forall₂ (fun r1 r2 => ∀ k ∈ internalFields, rowGet? r1 k = rowGet? r2 k)
          rows1 rows2 →
        generate_csv rows1 = generate_csv rows2) ∧
    (∀ (rows : List Row) (g : Row → PyVal),
        generate_csv (rows.map fun r => rowSet r "new_price" (g r)) = generate_csv rows) := by
  have hmap : ∀ rows1 rows2 : List Row,
      List.Forall₂ (fun r1 r2 => ∀ k ∈ internalFields, rowGet? r1 k = rowGet? r2 k)
        rows1 rows2 →
      rows1.map recordOfRow = rows2.map recordOfRow := by
    intro rows1 rows2 hf
    induction hf with
    | nil => rfl
    | cons hr _ ih =>
      rw [List.map_cons, List.map_cons, recordOfRow_congr _ _ hr, ih]
  constructor
  · intro rows1 rows2 hf
    rw [generate_csv, generate_csv, hmap rows1 rows2 hf]
  · intro rows g
    rw [generate_csv, generate_csv]
    have h2 : (rows.map fun r => rowSet r "new_price" (g r)).map recordOfRow
        = rows.map recordOfRow := by
      rw [List.map_map]
      refine List.map_congr_left ?_
      intro r _
      rw [Function.comp_apply]
      refine recordOfRow_congr _ _ ?_
      intro k hk
      refine rowGet?_rowSet_ne r "new_price" k (g r) ?_
      intro hcontra
      rw [hcontra] at hk
      exact absurd hk (by decide)
    rw [h2]
